import Mathlib

/-!
# Drawpile tile engine: `src/client/core/tile.cpp`

A shallow embedding of `paintcore::Tile` and of the storage block `TileData`
it points to, followed by theorems about the embedded functions.

Conventions of the embedding.

* A pixel is a `quint32`, represented by a natural number; a pixel buffer
  (`quint32 data[SIZE*SIZE]`, the bits of a 32-bit `QImage`, a caller's output
  buffer) is a `List Nat`, one entry per 32-bit word.
* A pointer into a buffer is its *byte* offset from the start of the buffer, an
  `Int`, exactly as the `uchar*` arithmetic of the source computes it. A
  `quint32*` that stands at word `k` is the byte offset `4 * k`.
* `memset` and `memcpy` return `none` when they would touch a byte outside the
  buffers they are given; C `int` values are unbounded `Int`s, and the only
  place where the machine width is visible, the conversion of a negative
  `int` to `size_t`, is explicit in `toSizeT`.
* Reference-counted blocks live in an explicit `Heap`; a `Tile` is the
  `QSharedDataPointer` handle (an optional address). Member functions that
  may change the handle or the heap return the new ones.
* `Q_ASSERT` is modelled as in a debug build: a failed assertion makes the
  function return `none`.
* `tile.h` and `rasterop.h` are not among the sources. `SIZE` (declared in
  `tile.h`) is a parameter of every definition, the blend primitives
  `compositeMask` and `compositePixels` (declared in `rasterop.h`) are
  parameters of the two members that call them, and what else `tile.h`
  declares is modelled from the specification and marked so. For the rectangle
  that `composite` touches, the walk of `compositeMask` over its destination
  is modelled from the specification as well, with the per-pixel math left
  as a parameter.
-/

namespace paintcore

/-! ## Raw memory -/

/-- Conversion of a C `int` to `size_t` on a 64-bit target: non-negative values
are kept, negative values wrap around modulo `2^64`. -/
def toSizeT (n : Int) : Nat :=
  if 0 ≤ n then n.toNat else (n + 2 ^ 64).toNat

/-- The 32-bit word all of whose four bytes are `c` (what `memset` leaves in
each `quint32` it covers). -/
def byteWord (c : Nat) : Nat := (c % 256) * 0x01010101

/-- C `memset(buf + p, c, n)` on a buffer of 32-bit words; `p` is a byte offset
and `n` the `int` handed to the `size_t` parameter. Result `none`: the range is
not word aligned or leaves the buffer. -/
def memset (buf : List Nat) (p : Int) (c : Nat) (n : Int) : Option (List Nat) :=
  let len : Int := (toSizeT n : Int)
  if p % 4 = 0 ∧ len % 4 = 0 ∧ 0 ≤ p ∧ p + len ≤ 4 * (buf.length : Int) then
    some ((List.range buf.length).map fun (i : Nat) =>
      if p ≤ 4 * (i : Int) ∧ 4 * (i : Int) < p + len then byteWord c else buf.getD i 0)
  else none

/-- C `memcpy(dst + dp, src + sp, n)` between two distinct buffers of 32-bit
words; `dp`, `sp` are byte offsets and `n` the `int` handed to the `size_t`
parameter. Result `none`: a range is not word aligned or leaves its buffer. -/
def memcpy (dst : List Nat) (dp : Int) (src : List Nat) (sp : Int) (n : Int) :
    Option (List Nat) :=
  let len : Int := (toSizeT n : Int)
  if dp % 4 = 0 ∧ sp % 4 = 0 ∧ len % 4 = 0 ∧ 0 ≤ dp ∧ 0 ≤ sp ∧
      dp + len ≤ 4 * (dst.length : Int) ∧ sp + len ≤ 4 * (src.length : Int) then
    some ((List.range dst.length).map fun (i : Nat) =>
      if dp ≤ 4 * (i : Int) ∧ 4 * (i : Int) < dp + len then
        src.getD ((sp - dp) / 4 + (i : Int)).toNat 0
      else dst.getD i 0)
  else none

/-- Modelled from the spec: the constant `Tile::BYTES` of `tile.h`, the size of
a block's pixel array in bytes, `SIZE*SIZE*4` (an `int`). -/
def BYTES (SIZE : Nat) : Int := SIZE * SIZE * 4

/-! ## Qt value types used by the tile -/

/-- The colour channels of a `QColor` as its 8-bit accessors `alpha()`, `red()`,
`green()`, `blue()` return them. -/
structure QColor where
  alpha : Fin 256
  red : Fin 256
  green : Fin 256
  blue : Fin 256

/-- Qt's `qRgba(r, g, b, a)`: the packed ARGB32 value. -/
def qRgba (r g b a : Nat) : Nat :=
  ((a &&& 0xff) <<< 24) ||| ((r &&& 0xff) <<< 16) ||| ((g &&& 0xff) <<< 8) ||| (b &&& 0xff)

/-- The packed value `QColor::rgba()` of a colour. -/
def QColor.rgba (c : QColor) : Nat :=
  qRgba c.red.val c.green.val c.blue.val c.alpha.val

/-- The pixel formats of `QImage` that matter here. -/
inductive QImage.Format where
  | Format_Invalid
  | Format_RGB32
  | Format_ARGB32
  | Format_ARGB32_Premultiplied
  deriving DecidableEq, Repr

/-- A 32-bit `QImage`: its dimensions, the length of a scan line in bytes and
its pixel words, scan line after scan line. -/
structure QImage where
  width : Nat
  height : Nat
  bytesPerLine : Nat
  format : QImage.Format
  bits : List Nat

/-- The invariant Qt keeps for a 32-bit image: scan lines are whole words, hold
at least `width` pixels, and the buffer holds `height` of them. -/
def QImage.wellFormed (img : QImage) : Prop :=
  img.bytesPerLine % 4 = 0 ∧ 4 * img.width ≤ img.bytesPerLine ∧
    4 * img.bits.length = img.bytesPerLine * img.height

/-- The image pixel in column `x` of row `y` (the word at
`scanLine(y) + 4 * x`). -/
def QImage.pixel (img : QImage) (x y : Nat) : Nat :=
  img.bits.getD ((y * img.bytesPerLine + 4 * x) / 4) 0

/-! ## Storage blocks and the heap -/

/-- Modelled from the spec: the struct `TileData` of `tile.h`, a `QSharedData`
(the atomic count of holders `ref`) with the pixel array
`quint32 data[SIZE*SIZE]`. -/
structure TileData where
  ref : Int
  data : List Nat

/-- The heap of `TileData` blocks: the live blocks by address, the next fresh
address, and the debug counter `TileData::_count`. -/
structure Heap where
  blocks : Nat → Option TileData
  next : Nat
  count : Int

/-- The heap with nothing allocated. -/
def Heap.empty : Heap := { blocks := fun _ => none, next := 0, count := 0 }

/-- The pixel array `d->data` read through the address `p`. -/
def Heap.data (h : Heap) (p : Nat) : List Nat :=
  match h.blocks p with
  | some td => td.data
  | none => []

/-- The heap after the pixel array of the block at `p` has been overwritten. -/
def Heap.write (h : Heap) (p : Nat) (d : List Nat) : Heap :=
  match h.blocks p with
  | some td => { h with blocks := Function.update h.blocks p (some { td with data := d }) }
  | none => h

/-- Default constructor `new TileData` (debug build): a fresh block with
reference count 0 and uninitialised pixels `junk`, and `_count` incremented. -/
def TileData.new (SIZE : Nat) (h : Heap) (junk : Nat → Nat) : Heap × Nat :=
  ({ blocks := Function.update h.blocks h.next
      (some { ref := 0, data := (List.range (SIZE * SIZE)).map junk }),
     next := h.next + 1,
     count := h.count + 1 }, h.next)

/-- Copy constructor `new TileData(td)` (debug build):
`memcpy(data, td.data, sizeof data)` into a fresh block with reference count 0,
and `_count` incremented. -/
def TileData.copy (h : Heap) (td : TileData) : Heap × Nat :=
  ({ blocks := Function.update h.blocks h.next (some { ref := 0, data := td.data }),
     next := h.next + 1,
     count := h.count + 1 }, h.next)

/-- Destructor call `delete d` (debug build): `_count` is decremented and the
block is freed. -/
def TileData.delete (h : Heap) (p : Nat) : Heap :=
  { h with blocks := Function.update h.blocks p none, count := h.count - 1 }

/-- Atomic increment `d->ref.ref()`. -/
def Heap.ref (h : Heap) (p : Nat) : Heap :=
  match h.blocks p with
  | some td => { h with blocks := Function.update h.blocks p (some { td with ref := td.ref + 1 }) }
  | none => h

/-- Atomic decrement `d->ref.deref()`: the new heap, and whether the new count
is non-zero. -/
def Heap.deref (h : Heap) (p : Nat) : Heap × Bool :=
  match h.blocks p with
  | some td =>
    ({ h with blocks := Function.update h.blocks p (some { td with ref := td.ref - 1 }) },
      decide (td.ref - 1 ≠ 0))
  | none => (h, true)

/-- Modelled from the spec: the handle type of `Tile::_data` is declared in
`tile.h` (a `QSharedDataPointer<TileData>`). This is its destructor, which
releases one reference: `if(d && !d->ref.deref()) delete d;`. -/
def QSharedDataPointer.release (h : Heap) (d : Option Nat) : Heap :=
  match d with
  | none => h
  | some p =>
    let r := h.deref p
    if r.2 then r.1 else TileData.delete r.1 p

/-- Modelled from the spec: `QSharedDataPointer::detach()`, run by every
non-const `operator->`: a block whose count is not 1 is cloned with the copy
constructor, the clone gets count 1, and the old block loses one reference. -/
def QSharedDataPointer.detach (h : Heap) (d : Option Nat) : Heap × Option Nat :=
  match d with
  | none => (h, none)
  | some p =>
    match h.blocks p with
    | none => (h, some p)
    | some td =>
      if td.ref ≠ 1 then
        let a := TileData.copy h td
        let h1 := a.1.ref a.2
        (QSharedDataPointer.release h1 (some p), some a.2)
      else (h, some p)

/-! ## The tile -/

/-- Modelled from the spec: the class `Tile` of `tile.h`; its one data member is
the shared pointer `_data`, an optional reference to a block, absent for the
null tile. -/
structure Tile where
  _data : Option Nat
  deriving DecidableEq

/-- Modelled from the spec: the default constructor `Tile()` of `tile.h`, the
null tile, which holds no block. -/
def Tile.null : Tile := { _data := none }

/-- Modelled from the spec: the member `isNull()` of `tile.h`, true when the
tile holds no block (`!_data`). -/
def Tile.isNull (t : Tile) : Bool := t._data.isNone

/-- Modelled from the spec: the (implicit) copy constructor of `Tile`; the copy
shares the block, whose count of holders is incremented. -/
def Tile.copy (h : Heap) (t : Tile) : Heap × Tile :=
  match t._data with
  | none => (h, t)
  | some p => (h.ref p, t)

/-- Modelled from the spec: the (implicit) destructor of `Tile`, which releases
its reference; the block is freed when that was the last one. -/
def Tile.destroy (h : Heap) (t : Tile) : Heap :=
  QSharedDataPointer.release h t._data

/-- The initialiser `_data(new TileData)`: a fresh block held by one pointer. -/
def Tile.alloc (SIZE : Nat) (h : Heap) (junk : Nat → Nat) : Heap × Nat :=
  let a := TileData.new SIZE h junk
  (a.1.ref a.2, a.2)

/-- The loop `for(int i=0;i<SIZE*SIZE;++i) *(ptr++) = col;` with `n` iterations
left and `ptr` at word `i`. -/
def Tile.fillLoop (col : Nat) : Nat → Nat → List Nat → List Nat
  | 0, _, data => data
  | n + 1, i, data => Tile.fillLoop col n (i + 1) (data.set i col)

/-- Constructor `Tile::Tile(const QColor& color)`. -/
def Tile.ofColor (SIZE : Nat) (h : Heap) (junk : Nat → Nat) (color : QColor) : Heap × Tile :=
  let a := Tile.alloc SIZE h junk
  let d := QSharedDataPointer.detach a.1 (some a.2)
  match d.2 with
  | none => (d.1, { _data := none })
  | some p =>
    let col := color.rgba
    ((d.1).write p (Tile.fillLoop col (SIZE * SIZE) 0 ((d.1).data p)), { _data := some p })

/-- The row loop
`for(int y=0;y<h;++y) { memcpy(d, s, n); d += dstep; s += sstep; }`
with `k` iterations left; `d`, `s` are byte offsets into `dst`, `src`. -/
def copyRows (src : List Nat) (n dstep sstep : Int) :
    Nat → List Nat → Int → Int → Option (List Nat)
  | 0, dst, _, _ => some dst
  | k + 1, dst, d, s =>
    match memcpy dst d src s n with
    | none => none
    | some dst1 => copyRows src n dstep sstep k dst1 (d + dstep) (s + sstep)

/-- The row loop `for(int y=0;y<h;++y) { memset(d, 0, n); d += dstep; }` with
`k` iterations left. -/
def zeroRows (n dstep : Int) : Nat → List Nat → Int → Option (List Nat)
  | 0, dst, _ => some dst
  | k + 1, dst, d =>
    match memset dst d 0 n with
    | none => none
    | some dst1 => zeroRows n dstep k dst1 (d + dstep)

/-- Constructor `Tile::Tile(const QImage& image, int xoff, int yoff)`. -/
def Tile.ofImage (SIZE : Nat) (h : Heap) (junk : Nat → Nat) (image : QImage)
    (xoff yoff : Int) : Option (Heap × Tile) :=
  let a := Tile.alloc SIZE h junk
  if ¬ (xoff ≥ 0 ∧ xoff < image.width) then none
  else if ¬ (yoff ≥ 0 ∧ yoff < image.height) then none
  else if ¬ (image.format = QImage.Format.Format_ARGB32) then none
  else
    let w : Int := if xoff + SIZE > image.width then image.width - xoff else SIZE
    let hh : Int := if yoff + SIZE > image.height then image.height - yoff else SIZE
    let d := QSharedDataPointer.detach a.1 (some a.2)
    match d.2 with
    | none => none
    | some p =>
      let ptr : Int := 0
      match memset ((d.1).data p) ptr 0 (BYTES SIZE) with
      | none => none
      | some z =>
        let src : Int := yoff * image.bytesPerLine + xoff * 4
        match copyRows image.bits (w * 4) (SIZE * 4) image.bytesPerLine hh.toNat z ptr src with
        | none => none
        | some r => some ((d.1).write p r, { _data := some p })

/-- Member `Tile::copyTo(quint32 *data) const`; `data` is the caller's buffer,
the result its new content. -/
def Tile.copyTo (SIZE : Nat) (h : Heap) (t : Tile) (data : List Nat) : Option (List Nat) :=
  match t._data with
  | none => memset data 0 0 (BYTES SIZE)
  | some p => memcpy data 0 (h.data p) 0 (BYTES SIZE)

/-- Member `Tile::copyToImage(QImage& image, int x, int y) const`. -/
def Tile.copyToImage (SIZE : Nat) (h : Heap) (t : Tile) (image : QImage) (x y : Int) :
    Option QImage :=
  let w : Int := 4 * (if (image.width : Int) - x < SIZE then (image.width : Int) - x else SIZE)
  let hh : Int := if (image.height : Int) - y < SIZE then (image.height : Int) - y else SIZE
  let targ : Int := y * image.bytesPerLine + x * 4
  match t._data with
  | none =>
    match zeroRows w image.bytesPerLine hh.toNat image.bits targ with
    | none => none
    | some b => some { image with bits := b }
  | some p =>
    let ptr : Int := 0
    match copyRows (h.data p) w image.bytesPerLine (4 * SIZE) hh.toNat image.bits targ ptr with
    | none => none
    | some b => some { image with bits := b }

/-- Member `Tile::getOrCreateData()`: the new heap, the new handle and the
address of the block whose pixel array is returned (`none` when a null pointer
would be dereferenced). -/
def Tile.getOrCreateData (SIZE : Nat) (h : Heap) (t : Tile) (junk : Nat → Nat) :
    Option (Heap × Tile × Nat) :=
  match t._data with
  | none =>
    let a := Tile.alloc SIZE h junk
    let d := QSharedDataPointer.detach a.1 (some a.2)
    match d.2 with
    | none => none
    | some p =>
      match memset ((d.1).data p) 0 0 (BYTES SIZE) with
      | none => none
      | some z =>
        let h1 := (d.1).write p z
        let e := QSharedDataPointer.detach h1 (some p)
        match e.2 with
        | none => none
        | some q => some (e.1, { _data := some q }, q)
  | some p0 =>
    let e := QSharedDataPointer.detach h (some p0)
    match e.2 with
    | none => none
    | some q => some (e.1, { _data := some q }, q)

/-- Member `Tile::composite`. The blend primitive `compositeMask` of
`rasterop.h` is a parameter: given the mode, the pixel array, the byte offset of
the first pixel, the colour, the mask, `w`, `h`, the mask skip and the
destination skip, it returns the new pixel array. -/
def Tile.composite (SIZE : Nat)
    (compositeMask : Int → List Nat → Int → Nat → List Nat → Int → Int → Int → Int → List Nat)
    (h : Heap) (t : Tile) (junk : Nat → Nat)
    (mode : Int) (values : List Nat) (color : QColor) (x y w hh skip : Int) :
    Option (Heap × Tile) :=
  if ¬ (x ≥ 0 ∧ x < SIZE ∧ y ≥ 0 ∧ y < SIZE) then none
  else if ¬ ((x + w) ≤ SIZE ∧ (y + hh) ≤ SIZE) then none
  else
    match Tile.getOrCreateData SIZE h t junk with
    | none => none
    | some (h1, t1, p) =>
      some (h1.write p
        (compositeMask mode (h1.data p) (4 * (y * SIZE + x)) color.rgba values w hh skip
          (SIZE - w)), t1)

/-- Member `Tile::merge`. The blend primitive `compositePixels` of `rasterop.h`
is a parameter: given the mode, the destination pixels, the source pixels, the
pixel count and the opacity, it returns the new destination pixels. -/
def Tile.merge (SIZE : Nat)
    (compositePixels : Int → List Nat → List Nat → Int → Nat → List Nat)
    (h : Heap) (t : Tile) (junk : Nat → Nat)
    (tile : Tile) (opacity : Nat) (blend : Int) : Option (Heap × Tile) :=
  if ! tile.isNull then
    match Tile.getOrCreateData SIZE h t junk with
    | none => none
    | some (h1, t1, p) =>
      match tile._data with
      | none => none
      | some sp =>
        some (h1.write p
          (compositePixels blend (h1.data p) (h1.data sp) (SIZE * SIZE) opacity), t1)
  else some (h, t)

/-- The loop of `isBlank`:
`while(pixel<end) { if((*pixel & 0xff000000)) return false; ++pixel; } return true;`
with `n = end - pixel` iterations left and `pixel` at word `i`. -/
def Tile.isBlankLoop (data : List Nat) : Nat → Nat → Bool
  | 0, _ => true
  | n + 1, i =>
    if data.getD i 0 &&& 0xff000000 ≠ 0 then false
    else Tile.isBlankLoop data n (i + 1)

/-- Member `Tile::isBlank() const`. -/
def Tile.isBlank (SIZE : Nat) (h : Heap) (t : Tile) : Bool :=
  if t.isNull then true
  else
    match t._data with
    | none => true
    | some p => Tile.isBlankLoop (h.data p) (SIZE * SIZE) 0

/-! ## The checkerboard -/

/-- The store `*q = v` through a `quint32*` that stands at word `q` of a buffer;
`none` when `q` is outside the buffer. -/
def store (buf : List Nat) (q : Nat) (v : Nat) : Option (List Nat) :=
  if q < buf.length then some (buf.set q v) else none

/-- The inner loop of `fillChecker`,
`for(int x=0;x<HALF;++x) { *(q1++) = d; *(q2++) = l; *(q3++) = l; *(q4++) = d; }`,
with `n` iterations left and the four pointers at words `q1`, `q2`, `q3`, `q4`. -/
def Tile.fillCheckerRow (d l : Nat) : Nat → List Nat → Nat → Nat → Nat → Nat → Option (List Nat)
  | 0, data, _, _, _, _ => some data
  | n + 1, data, q1, q2, q3, q4 =>
    match store data q1 d with
    | none => none
    | some a =>
      match store a q2 l with
      | none => none
      | some b =>
        match store b q3 l with
        | none => none
        | some c =>
          match store c q4 d with
          | none => none
          | some e => Tile.fillCheckerRow d l n e (q1 + 1) (q2 + 1) (q3 + 1) (q4 + 1)

/-- The outer loop of `fillChecker`,
`for(int y=0;y<HALF;++y) { <inner loop>; q1 += HALF; q2 += HALF; q3 += HALF; q4 += HALF; }`,
with `k` iterations left. The inner loop has advanced each pointer by `HALF`
when the four additions run. -/
def Tile.fillCheckerRows (HALF d l : Nat) :
    Nat → List Nat → Nat → Nat → Nat → Nat → Option (List Nat)
  | 0, data, _, _, _, _ => some data
  | k + 1, data, q1, q2, q3, q4 =>
    match Tile.fillCheckerRow d l HALF data q1 q2 q3 q4 with
    | none => none
    | some a =>
      Tile.fillCheckerRows HALF d l k a (q1 + HALF + HALF) (q2 + HALF + HALF)
        (q3 + HALF + HALF) (q4 + HALF + HALF)

/-- Static member `Tile::fillChecker(quint32 *data, const QColor& dark, const
QColor& light)`; `data` is the caller's buffer, the result its new content,
`none` when a store would fall outside it. -/
def Tile.fillChecker (SIZE : Nat) (data : List Nat) (dark light : QColor) : Option (List Nat) :=
  let HALF := SIZE / 2
  let d := dark.rgba
  let l := light.rgba
  Tile.fillCheckerRows HALF d l HALF data 0 HALF (SIZE * HALF) (SIZE * HALF + HALF)

/-! ## The accesses of the row loops and of the mask primitive -/

/-- The clamped width `w` that the image constructor computes:
`xoff + SIZE > image.width() ? image.width() - xoff : SIZE`. -/
def Tile.ofImage_w (SIZE : Nat) (image : QImage) (xoff : Int) : Int :=
  if xoff + SIZE > image.width then image.width - xoff else SIZE

/-- The clamped height `h` that the image constructor computes:
`yoff + SIZE > image.height() ? image.height() - yoff : SIZE`. -/
def Tile.ofImage_h (SIZE : Nat) (image : QImage) (yoff : Int) : Int :=
  if yoff + SIZE > image.height then image.height - yoff else SIZE

/-- The `memcpy` calls the row loop `copyRows` issues, in order: destination
byte offset, source byte offset and byte count of each. -/
def copyRowsCalls (n dstep sstep : Int) : Nat → Int → Int → List (Int × Int × Int)
  | 0, _, _ => []
  | k + 1, d, s => (d, s, n) :: copyRowsCalls n dstep sstep k (d + dstep) (s + sstep)

/-- Modelled from the spec: one row of the walk of `compositeMask` (`rasterop.h`),
`n` consecutive destination pixels paired with `n` consecutive mask values,
from destination word `d` and mask index `m`. -/
def maskRowWalk : Nat → Int → Int → List (Int × Int)
  | 0, _, _ => []
  | n + 1, d, m => (d, m) :: maskRowWalk n (d + 1) (m + 1)

/-- Modelled from the spec: the walk of `compositeMask` (`rasterop.h`) over its
destination and its mask: `k` rows of `w` pixels; after each row `destskip`
destination pixels and `maskskip` mask values are skipped. -/
def maskWalk (w : Nat) (maskskip destskip : Int) : Nat → Int → Int → List (Int × Int)
  | 0, _, _ => []
  | k + 1, d, m =>
    maskRowWalk w d m ++
      maskWalk w maskskip destskip k (d + w + destskip) (m + w + maskskip)

/-- Modelled from the spec: the destination words that
`compositeMask(mode, dest, color, mask, w, h, maskskip, destskip)` addresses
when `dest` is the byte offset `start` into the pixel array. -/
def compositeMaskAddresses (start w h maskskip destskip : Int) : List Int :=
  (maskWalk w.toNat maskskip destskip h.toNat (start / 4) 0).map Prod.fst

/-- Modelled from the spec: the blend primitive `compositeMask` of `rasterop.h`,
which composites an alpha mask tinted by one colour onto a sub-rectangle of a
pixel buffer and writes nowhere else. At each step of its walk it replaces
the destination pixel by `blendPixel mode pixel color maskValue`; the
per-pixel math `blendPixel` belongs to the library and is a parameter. -/
def compositeMask (blendPixel : Int → Nat → Nat → Nat → Nat) :
    Int → List Nat → Int → Nat → List Nat → Int → Int → Int → Int → List Nat :=
  fun mode dest start color mask w h maskskip destskip =>
    (maskWalk w.toNat maskskip destskip h.toNat (start / 4) 0).foldl
      (fun acc c =>
        if 0 ≤ c.1 then
          acc.set c.1.toNat (blendPixel mode (acc.getD c.1.toNat 0) color (mask.getD c.2.toNat 0))
        else acc)
      dest

/-! ## Counting blocks and holders -/

/-- The number of live blocks of a heap. -/
def Heap.live (h : Heap) : Nat :=
  (List.range h.next).countP (fun p => (h.blocks p).isSome)

/-- The debug counter is right: `TileData::_count` equals the number of live
blocks, and no block lives at an address that was never handed out. -/
def Heap.counted (h : Heap) : Prop :=
  h.count = (h.live : Int) ∧ ∀ p, h.next ≤ p → h.blocks p = none

/-- The heap after `n` further copies of the tile `t` have been made. -/
def Tile.copyN : Nat → Heap → Tile → Heap
  | 0, h, _ => h
  | n + 1, h, t => Tile.copyN n (Tile.copy h t).1 t

/-- The heap after `k` of the handles that equal `t` have been destroyed. -/
def Tile.destroyN : Nat → Heap → Tile → Heap
  | 0, h, _ => h
  | k + 1, h, t => Tile.destroyN k (Tile.destroy h t) t

/-! ## Observations used in the statements -/

/-- The tile pixel in column `i` of row `j`: the word `data[j * SIZE + i]` of
its block, and 0 (transparent) for the null tile. -/
def Tile.pixel (SIZE : Nat) (h : Heap) (t : Tile) (i j : Nat) : Nat :=
  match t._data with
  | none => 0
  | some p => (h.data p).getD (j * SIZE + i) 0

/-- A handle is valid in a heap when it is null or points to a live block,
allocated earlier, that is held at least once and stores `SIZE * SIZE` pixels. -/
def Tile.valid (SIZE : Nat) (h : Heap) (t : Tile) : Bool :=
  match t._data with
  | none => true
  | some p =>
    match h.blocks p with
    | none => false
    | some td => decide (p < h.next) && decide (1 ≤ td.ref) &&
        decide (td.data.length = SIZE * SIZE)

/-- The `SIZE * SIZE` pixels a tile stands for: the pixel array of its block, and
all zeros for the null tile. -/
def Tile.pixels (SIZE : Nat) (h : Heap) (t : Tile) : List Nat :=
  match t._data with
  | none => List.replicate (SIZE * SIZE) 0
  | some p => h.data p

/-- The alpha channel of a packed ARGB32 value: the top 8 of its 32 bits (Qt's
`qAlpha`). -/
def qAlpha (rgb : Nat) : Nat := rgb / 2 ^ 24 % 256

/-! ## Concrete inputs used to exercise the theorems -/

/-- A 3 x 2 ARGB32 image with pixels 11, 12, 13 / 21, 22, 23. -/
def sampleImage : QImage :=
  { width := 3, height := 2, bytesPerLine := 12, format := QImage.Format.Format_ARGB32,
    bits := [11, 12, 13, 21, 22, 23] }

/-- Opaque red. -/
def opaqueRed : QColor := { alpha := 255, red := 255, green := 0, blue := 0 }

/-- The heap after `Tile(opaqueRed)` has been built with `SIZE = 2` on the empty
heap. -/
def sampleHeap : Heap := (Tile.ofColor 2 Heap.empty (fun _ => 99) opaqueRed).1

/-- The tile `Tile(opaqueRed)` living in `sampleHeap`. -/
def sampleTile : Tile := (Tile.ofColor 2 Heap.empty (fun _ => 99) opaqueRed).2

/-- A stand-in for the mask primitive: adds 1 to every pixel of the array. -/
def sampleMask : Int → List Nat → Int → Nat → List Nat → Int → Int → Int → Int → List Nat :=
  fun _ d _ _ _ _ _ _ _ => d.map (fun v => v + 1)

/-- A stand-in for the pixel primitive: adds source to destination pixel-wise. -/
def samplePixels : Int → List Nat → List Nat → Int → Nat → List Nat :=
  fun _ d s _ _ => List.zipWith (fun a b => a + b) d s

/-- A stand-in for the per-pixel math of the mask primitive: adds the mask value
to the pixel. -/
def sampleBlend : Int → Nat → Nat → Nat → Nat :=
  fun _ pixel _ value => pixel + value

/-- Opaque white. -/
def opaqueWhite : QColor := { alpha := 255, red := 255, green := 255, blue := 255 }

/-! ## Lemmas on raw memory -/

theorem getD_map_range (f : Nat → Nat) (n i : Nat) :
    ((List.range n).map f).getD i 0 = if i < n then f i else 0 := by
  by_cases hi : i < n
  · simp [List.getD, hi]
  · have h1 : (List.range n)[i]? = none := by
      apply List.getElem?_eq_none
      simp only [List.length_range]
      omega
    simp [List.getD, hi, h1]

theorem getD_beyond (l : List Nat) (i : Nat) (h : l.length ≤ i) : l.getD i 0 = 0 :=
  List.getD_eq_default l 0 h

theorem toSizeT_nonneg (n : Nat) : toSizeT (n : Int) = n := by
  simp [toSizeT]

/-- Word-level reading of `memcpy`: `n` words from word `s` of `src` to word `d`
of `dst`. -/
theorem memcpy_words (dst src : List Nat) (d s n : Nat)
    (hd : d + n ≤ dst.length) (hs : s + n ≤ src.length) :
    memcpy dst (4 * (d : Int)) src (4 * (s : Int)) (4 * (n : Int)) =
      some ((List.range dst.length).map fun (i : Nat) =>
        if d ≤ i ∧ i < d + n then src.getD (s + (i - d)) 0 else dst.getD i 0) := by
  have h4 : (4 * (n : Int)) = ((4 * n : Nat) : Int) := by push_cast; ring
  unfold memcpy
  rw [h4, toSizeT_nonneg]
  have hc : (4 * (d : Int)) % 4 = 0 ∧ (4 * (s : Int)) % 4 = 0 ∧ (((4 * n : Nat) : Int)) % 4 = 0 ∧
      0 ≤ 4 * (d : Int) ∧ 0 ≤ 4 * (s : Int) ∧
      4 * (d : Int) + ((4 * n : Nat) : Int) ≤ 4 * (dst.length : Int) ∧
      4 * (s : Int) + ((4 * n : Nat) : Int) ≤ 4 * (src.length : Int) := by
    refine ⟨by omega, by omega, by omega, by omega, by omega, by omega, by omega⟩
  simp only [hc, and_self, if_true]
  congr 1
  apply List.map_congr_left
  intro i _
  by_cases hi : d ≤ i ∧ i < d + n
  · have h1 : 4 * (d : Int) ≤ 4 * (i : Int) ∧ 4 * (i : Int) < 4 * (d : Int) + ((4 * n : Nat) : Int) := by
      omega
    have h2 : ((4 * (s : Int) - 4 * (d : Int)) / 4 + (i : Int)).toNat = s + (i - d) := by omega
    rw [if_pos h1, if_pos hi, h2]
  · have h1 : ¬ (4 * (d : Int) ≤ 4 * (i : Int) ∧ 4 * (i : Int) < 4 * (d : Int) + ((4 * n : Nat) : Int)) := by
      omega
    rw [if_neg h1, if_neg hi]

/-- Word-level reading of `memset` with fill byte 0. -/
theorem memset_words (buf : List Nat) (d n : Nat) (hd : d + n ≤ buf.length) :
    memset buf (4 * (d : Int)) 0 (4 * (n : Int)) =
      some ((List.range buf.length).map fun (i : Nat) =>
        if d ≤ i ∧ i < d + n then 0 else buf.getD i 0) := by
  have h4 : (4 * (n : Int)) = ((4 * n : Nat) : Int) := by push_cast; ring
  unfold memset
  rw [h4, toSizeT_nonneg]
  have hc : (4 * (d : Int)) % 4 = 0 ∧ (((4 * n : Nat) : Int)) % 4 = 0 ∧ 0 ≤ 4 * (d : Int) ∧
      4 * (d : Int) + ((4 * n : Nat) : Int) ≤ 4 * (buf.length : Int) := by
    refine ⟨by omega, by omega, by omega, by omega⟩
  simp only [hc, and_self, if_true]
  congr 1
  apply List.map_congr_left
  intro i _
  by_cases hi : d ≤ i ∧ i < d + n
  · have h1 : 4 * (d : Int) ≤ 4 * (i : Int) ∧ 4 * (i : Int) < 4 * (d : Int) + ((4 * n : Nat) : Int) := by
      omega
    rw [if_pos h1, if_pos hi]; rfl
  · have h1 : ¬ (4 * (d : Int) ≤ 4 * (i : Int) ∧ 4 * (i : Int) < 4 * (d : Int) + ((4 * n : Nat) : Int)) := by
      omega
    rw [if_neg h1, if_neg hi]

/-- The row-copy loop at word level: `k` rows of `n` words, `ds` words apart in
the destination and `ss` words apart in the source. -/
theorem copyRows_words (src : List Nat) (n ds ss : Nat) (hn : n ≤ ds) :
    ∀ (k : Nat) (dst : List Nat) (d0 s0 : Nat),
      (∀ r, r < k → d0 + r * ds + n ≤ dst.length ∧ s0 + r * ss + n ≤ src.length) →
      ∃ res, copyRows src (4 * (n : Int)) (4 * (ds : Int)) (4 * (ss : Int)) k dst
            (4 * (d0 : Int)) (4 * (s0 : Int)) = some res ∧
        res.length = dst.length ∧
        (∀ r c, r < k → c < n →
          res.getD (d0 + r * ds + c) 0 = src.getD (s0 + r * ss + c) 0) ∧
        (∀ i, (∀ r c, r < k → c < n → i ≠ d0 + r * ds + c) →
          res.getD i 0 = dst.getD i 0) := by
  intro k
  induction k with
  | zero =>
    intro dst d0 s0 _
    exact ⟨dst, rfl, rfl, fun r c hr _ => absurd hr (Nat.not_lt_zero r), fun i _ => rfl⟩
  | succ k ih =>
    intro dst d0 s0 hb
    have hb0 := hb 0 (Nat.succ_pos k)
    simp only [Nat.zero_mul, Nat.add_zero] at hb0
    have hm := memcpy_words dst src d0 s0 n hb0.1 hb0.2
    have hlen1 : ((List.range dst.length).map fun (i : Nat) =>
        if d0 ≤ i ∧ i < d0 + n then src.getD (s0 + (i - d0)) 0 else dst.getD i 0).length
        = dst.length := by simp
    have hb1 : ∀ r, r < k → (d0 + ds) + r * ds + n ≤
        ((List.range dst.length).map fun (i : Nat) =>
          if d0 ≤ i ∧ i < d0 + n then src.getD (s0 + (i - d0)) 0 else dst.getD i 0).length ∧
        (s0 + ss) + r * ss + n ≤ src.length := by
      intro r hr
      have h2 := hb (r + 1) (Nat.succ_lt_succ hr)
      rw [Nat.succ_mul, Nat.succ_mul] at h2
      rw [hlen1]
      omega
    obtain ⟨res, hres, hl, ha, hbb⟩ := ih _ (d0 + ds) (s0 + ss) hb1
    have e1 : (4 * (d0 : Int) + 4 * (ds : Int)) = 4 * ((d0 + ds : Nat) : Int) := by
      push_cast; ring
    have e2 : (4 * (s0 : Int) + 4 * (ss : Int)) = 4 * ((s0 + ss : Nat) : Int) := by
      push_cast; ring
    refine ⟨res, ?_, ?_, ?_, ?_⟩
    · simp only [copyRows, hm, e1, e2]
      exact hres
    · rw [hl, hlen1]
    · intro r c hr hc
      cases r with
      | zero =>
        have h3 := hbb (d0 + 0 * ds + c) (by
          intro r2 c2 _ hc2
          have : r2 * ds ≥ 0 := Nat.zero_le _
          omega)
        rw [h3, getD_map_range]
        have h4 : d0 + 0 * ds + c < dst.length := by omega
        have h5 : d0 ≤ d0 + 0 * ds + c ∧ d0 + 0 * ds + c < d0 + n := by omega
        rw [if_pos h4, if_pos h5]
        congr 1
        omega
      | succ r1 =>
        have h3 := ha r1 c (Nat.lt_of_succ_lt_succ hr) hc
        have e3 : d0 + (r1 + 1) * ds + c = d0 + ds + r1 * ds + c := by
          rw [Nat.succ_mul]; omega
        have e4 : s0 + (r1 + 1) * ss + c = s0 + ss + r1 * ss + c := by
          rw [Nat.succ_mul]; omega
        rw [e3, e4, h3]
    · intro i hi
      have h3 := hbb i (by
        intro r2 c2 hr2 hc2
        have h6 := hi (r2 + 1) c2 (Nat.succ_lt_succ hr2) hc2
        rw [Nat.succ_mul] at h6
        omega)
      rw [h3, getD_map_range]
      have h7 : ¬ (d0 ≤ i ∧ i < d0 + n) := by
        intro h8
        have h9 := hi 0 (i - d0) (Nat.succ_pos k) (by omega)
        omega
      rw [if_neg h7]
      by_cases h10 : i < dst.length
      · rw [if_pos h10]
      · rw [if_neg h10, getD_beyond dst i (by omega)]

/-- The row-clearing loop at word level. -/
theorem zeroRows_words (n ds : Nat) (hn : n ≤ ds) :
    ∀ (k : Nat) (dst : List Nat) (d0 : Nat),
      (∀ r, r < k → d0 + r * ds + n ≤ dst.length) →
      ∃ res, zeroRows (4 * (n : Int)) (4 * (ds : Int)) k dst (4 * (d0 : Int)) = some res ∧
        res.length = dst.length ∧
        (∀ r c, r < k → c < n → res.getD (d0 + r * ds + c) 0 = 0) ∧
        (∀ i, (∀ r c, r < k → c < n → i ≠ d0 + r * ds + c) →
          res.getD i 0 = dst.getD i 0) := by
  intro k
  induction k with
  | zero =>
    intro dst d0 _
    exact ⟨dst, rfl, rfl, fun r c hr _ => absurd hr (Nat.not_lt_zero r), fun i _ => rfl⟩
  | succ k ih =>
    intro dst d0 hb
    have hb0 := hb 0 (Nat.succ_pos k)
    simp only [Nat.zero_mul, Nat.add_zero] at hb0
    have hm := memset_words dst d0 n hb0
    have hlen1 : ((List.range dst.length).map fun (i : Nat) =>
        if d0 ≤ i ∧ i < d0 + n then 0 else dst.getD i 0).length = dst.length := by simp
    have hb1 : ∀ r, r < k → (d0 + ds) + r * ds + n ≤
        ((List.range dst.length).map fun (i : Nat) =>
          if d0 ≤ i ∧ i < d0 + n then 0 else dst.getD i 0).length := by
      intro r hr
      have h2 := hb (r + 1) (Nat.succ_lt_succ hr)
      rw [Nat.succ_mul] at h2
      rw [hlen1]
      omega
    obtain ⟨res, hres, hl, ha, hbb⟩ := ih _ (d0 + ds) hb1
    have e1 : (4 * (d0 : Int) + 4 * (ds : Int)) = 4 * ((d0 + ds : Nat) : Int) := by
      push_cast; ring
    refine ⟨res, ?_, ?_, ?_, ?_⟩
    · simp only [zeroRows, hm, e1]
      exact hres
    · rw [hl, hlen1]
    · intro r c hr hc
      cases r with
      | zero =>
        have h3 := hbb (d0 + 0 * ds + c) (by
          intro r2 c2 _ hc2
          have : r2 * ds ≥ 0 := Nat.zero_le _
          omega)
        rw [h3, getD_map_range]
        have h4 : d0 + 0 * ds + c < dst.length := by omega
        have h5 : d0 ≤ d0 + 0 * ds + c ∧ d0 + 0 * ds + c < d0 + n := by omega
        rw [if_pos h4, if_pos h5]
      | succ r1 =>
        have h3 := ha r1 c (Nat.lt_of_succ_lt_succ hr) hc
        have e3 : d0 + (r1 + 1) * ds + c = d0 + ds + r1 * ds + c := by
          rw [Nat.succ_mul]; omega
        rw [e3, h3]
    · intro i hi
      have h3 := hbb i (by
        intro r2 c2 hr2 hc2
        have h6 := hi (r2 + 1) c2 (Nat.succ_lt_succ hr2) hc2
        rw [Nat.succ_mul] at h6
        omega)
      rw [h3, getD_map_range]
      have h7 : ¬ (d0 ≤ i ∧ i < d0 + n) := by
        intro h8
        have h9 := hi 0 (i - d0) (Nat.succ_pos k) (by omega)
        omega
      rw [if_neg h7]
      by_cases h10 : i < dst.length
      · rw [if_pos h10]
      · rw [if_neg h10, getD_beyond dst i (by omega)]

/-! ## Lemmas on the heap -/

theorem Heap.data_of_block (h : Heap) (p : Nat) (td : TileData) (hb : h.blocks p = some td) :
    h.data p = td.data := by
  simp [Heap.data, hb]

theorem Heap.write_blocks_self (h : Heap) (p : Nat) (d : List Nat) (td : TileData)
    (hb : h.blocks p = some td) :
    (h.write p d).blocks p = some { ref := td.ref, data := d } := by
  simp [Heap.write, hb]

theorem Heap.write_blocks_other (h : Heap) (p q : Nat) (d : List Nat) (hq : q ≠ p) :
    (h.write p d).blocks q = h.blocks q := by
  unfold Heap.write
  cases hb : h.blocks p with
  | none => rfl
  | some td => simp [Function.update, hq]

theorem Heap.data_write_self (h : Heap) (p : Nat) (d : List Nat) (td : TileData)
    (hb : h.blocks p = some td) : (h.write p d).data p = d := by
  rw [Heap.data_of_block _ _ _ (Heap.write_blocks_self h p d td hb)]

theorem Heap.data_write_other (h : Heap) (p q : Nat) (d : List Nat) (hq : q ≠ p) :
    (h.write p d).data q = h.data q := by
  simp [Heap.data, Heap.write_blocks_other h p q d hq]

theorem Heap.write_next (h : Heap) (p : Nat) (d : List Nat) : (h.write p d).next = h.next := by
  unfold Heap.write
  cases h.blocks p <;> rfl

theorem Heap.write_count (h : Heap) (p : Nat) (d : List Nat) :
    (h.write p d).count = h.count := by
  unfold Heap.write
  cases h.blocks p <;> rfl

theorem Tile.alloc_snd (SIZE : Nat) (h : Heap) (junk : Nat → Nat) :
    (Tile.alloc SIZE h junk).2 = h.next := rfl

theorem Tile.alloc_blocks_self (SIZE : Nat) (h : Heap) (junk : Nat → Nat) :
    (Tile.alloc SIZE h junk).1.blocks h.next =
      some { ref := 1, data := (List.range (SIZE * SIZE)).map junk } := by
  simp [Tile.alloc, TileData.new, Heap.ref]

theorem Tile.alloc_blocks_other (SIZE : Nat) (h : Heap) (junk : Nat → Nat) (q : Nat)
    (hq : q ≠ h.next) : (Tile.alloc SIZE h junk).1.blocks q = h.blocks q := by
  simp [Tile.alloc, TileData.new, Heap.ref, Function.update, hq]

theorem Tile.alloc_next (SIZE : Nat) (h : Heap) (junk : Nat → Nat) :
    (Tile.alloc SIZE h junk).1.next = h.next + 1 := by
  simp [Tile.alloc, TileData.new, Heap.ref]

theorem Tile.alloc_count (SIZE : Nat) (h : Heap) (junk : Nat → Nat) :
    (Tile.alloc SIZE h junk).1.count = h.count + 1 := by
  simp [Tile.alloc, TileData.new, Heap.ref]

/-- A block held by exactly one pointer is not cloned by `detach`. -/
theorem QSharedDataPointer.detach_sole (h : Heap) (p : Nat) (td : TileData)
    (hb : h.blocks p = some td) (hr : td.ref = 1) :
    QSharedDataPointer.detach h (some p) = (h, some p) := by
  simp [QSharedDataPointer.detach, hb, hr]

theorem Tile.detach_alloc (SIZE : Nat) (h : Heap) (junk : Nat → Nat) :
    QSharedDataPointer.detach (Tile.alloc SIZE h junk).1 (some (Tile.alloc SIZE h junk).2) =
      ((Tile.alloc SIZE h junk).1, some h.next) :=
  QSharedDataPointer.detach_sole _ _ _ (Tile.alloc_blocks_self SIZE h junk) rfl

/-! ## Extraction from an image -/

theorem rowcol_unique (S j i r c : Nat) (hi : i < S) (hc : c < S)
    (h : j * S + i = r * S + c) : j = r ∧ i = c := by
  have hS : 0 < S := by omega
  have h1 : (j * S + i) / S = j := by
    rw [Nat.add_comm, Nat.add_mul_div_right _ _ hS, Nat.div_eq_of_lt hi, Nat.zero_add]
  have h2 : (r * S + c) / S = r := by
    rw [Nat.add_comm, Nat.add_mul_div_right _ _ hS, Nat.div_eq_of_lt hc, Nat.zero_add]
  have h3 : j = r := by rw [← h1, ← h2, h]
  subst h3
  exact ⟨rfl, by omega⟩

theorem row_in_block (S r n : Nat) (hr : r < S) (hn : n ≤ S) : r * S + n ≤ S * S := by
  have h1 : (r + 1) * S ≤ S * S := Nat.mul_le_mul_right S hr
  rw [Nat.succ_mul] at h1
  omega

theorem row_in_image (s height width y x n : Nat) (hy : y < height) (hw : x + n ≤ width)
    (hs : width ≤ s) : y * s + x + n ≤ s * height := by
  have h1 : (y + 1) * s ≤ height * s := Nat.mul_le_mul_right s hy
  rw [Nat.succ_mul] at h1
  rw [Nat.mul_comm s height]
  omega

theorem QImage.pixel_words (img : QImage) (s x y : Nat) (hs : img.bytesPerLine = 4 * s) :
    img.pixel x y = img.bits.getD (y * s + x) 0 := by
  unfold QImage.pixel
  have e : y * img.bytesPerLine + 4 * x = 4 * (y * s + x) := by
    rw [hs, Nat.mul_add, Nat.mul_left_comm]
  rw [e, Nat.mul_div_cancel_left _ (by decide : 0 < 4)]

theorem QImage.wellFormed_words (img : QImage) (hwf : img.wellFormed) :
    ∃ s, img.bytesPerLine = 4 * s ∧ img.width ≤ s ∧ img.bits.length = s * img.height := by
  obtain ⟨h1, h2, h3⟩ := hwf
  refine ⟨img.bytesPerLine / 4, by omega, by omega, ?_⟩
  have e : img.bytesPerLine = 4 * (img.bytesPerLine / 4) := by omega
  rw [e, Nat.mul_assoc] at h3
  exact Nat.eq_of_mul_eq_mul_left (by decide : 0 < 4) h3

/-- What the image constructor builds: a fresh block at address `h.next` whose
pixel array is the clamped copy of the image region, zero elsewhere. -/
theorem Tile.ofImage_spec (SIZE : Nat) (h : Heap) (junk : Nat → Nat) (img : QImage)
    (xoff yoff : Nat) (hwf : img.wellFormed)
    (hfmt : img.format = QImage.Format.Format_ARGB32)
    (hx : xoff < img.width) (hy : yoff < img.height) :
    ∃ r, Tile.ofImage SIZE h junk img xoff yoff =
          some ((Tile.alloc SIZE h junk).1.write h.next r, { _data := some h.next }) ∧
      r.length = SIZE * SIZE ∧
      ∀ i j, i < SIZE → j < SIZE →
        r.getD (j * SIZE + i) 0 =
          if i < min SIZE (img.width - xoff) ∧ j < min SIZE (img.height - yoff) then
            img.pixel (xoff + i) (yoff + j)
          else 0 := by
  obtain ⟨s, hs, hws, hlen⟩ := QImage.wellFormed_words img hwf
  have hw : (if (xoff : Int) + (SIZE : Int) > (img.width : Int) then
      (img.width : Int) - (xoff : Int) else (SIZE : Int)) =
      ((min SIZE (img.width - xoff) : Nat) : Int) := by
    split <;> omega
  have hh : (if (yoff : Int) + (SIZE : Int) > (img.height : Int) then
      (img.height : Int) - (yoff : Int) else (SIZE : Int)) =
      ((min SIZE (img.height - yoff) : Nat) : Int) := by
    split <;> omega
  have hdata : (Tile.alloc SIZE h junk).1.data h.next = (List.range (SIZE * SIZE)).map junk :=
    Heap.data_of_block _ _ _ (Tile.alloc_blocks_self SIZE h junk)
  have hms := memset_words ((List.range (SIZE * SIZE)).map junk) 0 (SIZE * SIZE) (by simp)
  have hzlen : ((List.range ((List.range (SIZE * SIZE)).map junk).length).map fun (i : Nat) =>
      if 0 ≤ i ∧ i < 0 + SIZE * SIZE then 0
      else ((List.range (SIZE * SIZE)).map junk).getD i 0).length = SIZE * SIZE := by simp
  have hz0 : ∀ i, (((List.range ((List.range (SIZE * SIZE)).map junk).length).map fun (i : Nat) =>
      if 0 ≤ i ∧ i < 0 + SIZE * SIZE then 0
      else ((List.range (SIZE * SIZE)).map junk).getD i 0)).getD i 0 = 0 := by
    intro i
    rw [getD_map_range]
    simp only [List.length_map, List.length_range]
    by_cases hi : i < SIZE * SIZE
    · have : 0 ≤ i ∧ i < 0 + SIZE * SIZE := by omega
      rw [if_pos hi, if_pos this]
    · rw [if_neg hi]
  obtain ⟨res, hres, hrl, hra, hrb⟩ := copyRows_words img.bits (min SIZE (img.width - xoff))
    SIZE s (Nat.min_le_left _ _) (min SIZE (img.height - yoff)) _ 0 (yoff * s + xoff)
    (by
      intro r hr
      rw [hzlen, hlen]
      constructor
      · have := row_in_block SIZE r (min SIZE (img.width - xoff))
          (by omega) (Nat.min_le_left _ _)
        omega
      · have := row_in_image s img.height img.width (yoff + r) xoff
          (min SIZE (img.width - xoff)) (by omega) (by omega) hws
        rw [Nat.add_mul] at this
        omega)
  refine ⟨res, ?_, ?_, ?_⟩
  · have e0 : (0 : Int) = 4 * ((0 : Nat) : Int) := by simp
    have e1 : ((SIZE : Int) * (SIZE : Int) * 4) = 4 * ((SIZE * SIZE : Nat) : Int) := by
      push_cast; ring
    have e2 : ((yoff : Int) * ((img.bytesPerLine : Nat) : Int) + (xoff : Int) * 4) =
        4 * ((yoff * s + xoff : Nat) : Int) := by
      rw [hs]; push_cast; ring
    have e3 : (((min SIZE (img.width - xoff) : Nat) : Int) * 4) =
        4 * ((min SIZE (img.width - xoff) : Nat) : Int) := by ring
    have e4 : ((SIZE : Int) * 4) = 4 * (SIZE : Int) := by ring
    have e5 : ((img.bytesPerLine : Nat) : Int) = 4 * (s : Int) := by rw [hs]; push_cast; ring
    have hx1 : ((xoff : Int) ≥ 0 ∧ (xoff : Int) < (img.width : Int)) := by omega
    have hy1 : ((yoff : Int) ≥ 0 ∧ (yoff : Int) < (img.height : Int)) := by omega
    unfold Tile.ofImage
    simp only [hx1, hy1, hfmt, and_self, not_true_eq_false, if_false, Tile.detach_alloc, hdata,
      hw, hh, Int.toNat_ofNat, BYTES]
    rw [e1, e2, e3, e4, e5]
    rw [e0, hms]
    simp only []
    rw [hres]
  · rw [hrl, hzlen]
  · intro i j hi hj
    by_cases hc : i < min SIZE (img.width - xoff) ∧ j < min SIZE (img.height - yoff)
    · rw [if_pos hc]
      have h1 := hra j i hc.2 hc.1
      rw [Nat.zero_add] at h1
      rw [h1, QImage.pixel_words img s _ _ hs, Nat.add_mul]
      congr 1
      omega
    · rw [if_neg hc]
      have h1 := hrb (j * SIZE + i) (by
        intro r c hr hcc heq
        rw [Nat.zero_add] at heq
        have h2 := rowcol_unique SIZE j i r c hi (by omega) heq
        omega)
      rw [h1, hz0]

/-- C2. Extraction: under the asserted preconditions the image constructor
returns a non-null tile whose pixel `(i, j)` is the image pixel
`(xoff + i, yoff + j)` inside the clamped rectangle and 0 everywhere else. -/
theorem C2_extraction (SIZE : Nat) (h : Heap) (junk : Nat → Nat) (img : QImage)
    (xoff yoff : Nat) (hwf : img.wellFormed)
    (hfmt : img.format = QImage.Format.Format_ARGB32)
    (hx : xoff < img.width) (hy : yoff < img.height) :
    ∃ h1 t, Tile.ofImage SIZE h junk img xoff yoff = some (h1, t) ∧ t.isNull = false ∧
      ∀ i j, i < SIZE → j < SIZE →
        Tile.pixel SIZE h1 t i j =
          if i < min SIZE (img.width - xoff) ∧ j < min SIZE (img.height - yoff) then
            img.pixel (xoff + i) (yoff + j)
          else 0 := by
  obtain ⟨r, hr, _, hpix⟩ := Tile.ofImage_spec SIZE h junk img xoff yoff hwf hfmt hx hy
  refine ⟨_, _, hr, rfl, ?_⟩
  intro i j hi hj
  simp only [Tile.pixel]
  rw [Heap.data_write_self _ _ _ _ (Tile.alloc_blocks_self SIZE h junk)]
  exact hpix i j hi hj

theorem C2_extraction_witness :
    ∃ h1 t, Tile.ofImage 2 Heap.empty (fun _ => 99) sampleImage ((2 : Nat) : Int) ((1 : Nat) : Int)
        = some (h1, t) ∧ t.isNull = false ∧
      ∀ i j, i < 2 → j < 2 →
        Tile.pixel 2 h1 t i j =
          if i < min 2 (sampleImage.width - 2) ∧ j < min 2 (sampleImage.height - 1) then
            sampleImage.pixel (2 + i) (1 + j)
          else 0 :=
  C2_extraction 2 Heap.empty (fun _ => 99) sampleImage 2 1
    ⟨by decide, by decide, by decide⟩ rfl (by decide) (by decide)

/-! ## Forcing private storage -/

theorem Tile.valid_some (SIZE : Nat) (h : Heap) (t : Tile) (p : Nat) (hp : t._data = some p)
    (hv : t.valid SIZE h = true) :
    ∃ td, h.blocks p = some td ∧ p < h.next ∧ 1 ≤ td.ref ∧ td.data.length = SIZE * SIZE := by
  unfold Tile.valid at hv
  rw [hp] at hv
  cases hb : h.blocks p with
  | none => simp [hb] at hv
  | some td =>
    simp only [hb, Bool.and_eq_true, decide_eq_true_eq] at hv
    exact ⟨td, rfl, hv.1.1, hv.1.2, hv.2⟩

/-- Detaching from a block whose count is not 1: the clone sits at `h.next` with
count 1, the old block loses one reference (and is deleted when that was its
last), and no other block changes. -/
theorem QSharedDataPointer.detach_shared (h : Heap) (p : Nat) (td : TileData)
    (hb : h.blocks p = some td) (hlt : p < h.next) (hr : td.ref ≠ 1) :
    (QSharedDataPointer.detach h (some p)).2 = some h.next ∧
      (QSharedDataPointer.detach h (some p)).1.blocks h.next =
        some { ref := 1, data := td.data } ∧
      (QSharedDataPointer.detach h (some p)).1.next = h.next + 1 ∧
      (∀ q, q ≠ h.next → q ≠ p →
        (QSharedDataPointer.detach h (some p)).1.blocks q = h.blocks q) ∧
      (QSharedDataPointer.detach h (some p)).1.blocks p =
        (if td.ref - 1 ≠ 0 then some { ref := td.ref - 1, data := td.data } else none) ∧
      (QSharedDataPointer.detach h (some p)).1.count =
        (if td.ref - 1 ≠ 0 then h.count + 1 else h.count) := by
  have hne : p ≠ h.next := by omega
  have hne2 : h.next ≠ p := by omega
  by_cases h0 : td.ref - 1 ≠ 0
  · simp [QSharedDataPointer.detach, hb, hr, TileData.copy, Heap.ref,
      QSharedDataPointer.release, Heap.deref, Function.update, hne, hne2, h0]
    intro q h1 h2
    simp [h1, h2]
  · simp [QSharedDataPointer.detach, hb, hr, TileData.copy, Heap.ref,
      QSharedDataPointer.release, Heap.deref, Function.update, hne, hne2, h0, TileData.delete]
    intro q h1 h2
    simp [h1, h2]

/-- On a shared block `getOrCreateData` returns the detached clone. -/
theorem Tile.getOrCreateData_shared (SIZE : Nat) (h : Heap) (t : Tile) (junk : Nat → Nat)
    (p : Nat) (td : TileData) (hp : t._data = some p) (hb : h.blocks p = some td)
    (hlt : p < h.next) (hr : td.ref ≠ 1) :
    Tile.getOrCreateData SIZE h t junk =
      some ((QSharedDataPointer.detach h (some p)).1, { _data := some h.next }, h.next) := by
  have hd := (QSharedDataPointer.detach_shared h p td hb hlt hr).1
  simp only [Tile.getOrCreateData, hp, hd]

/-- On a block held once `getOrCreateData` returns the block itself and leaves
the heap alone. -/
theorem Tile.getOrCreateData_sole (SIZE : Nat) (h : Heap) (t : Tile) (junk : Nat → Nat)
    (p : Nat) (td : TileData) (hp : t._data = some p) (hb : h.blocks p = some td)
    (hr : td.ref = 1) :
    Tile.getOrCreateData SIZE h t junk = some (h, { _data := some p }, p) := by
  simp only [Tile.getOrCreateData, hp, QSharedDataPointer.detach_sole h p td hb hr]

theorem zero_block (SIZE : Nat) (junk : Nat → Nat) :
    memset ((List.range (SIZE * SIZE)).map junk) 0 0 (BYTES SIZE) =
      some (List.replicate (SIZE * SIZE) 0) := by
  unfold BYTES
  have e0 : (0 : Int) = 4 * ((0 : Nat) : Int) := by simp
  have e1 : ((SIZE : Int) * (SIZE : Int) * 4) = 4 * ((SIZE * SIZE : Nat) : Int) := by
    push_cast; ring
  rw [e1, e0, memset_words _ 0 (SIZE * SIZE) (by simp)]
  congr 1
  apply List.ext_getElem
  · simp
  · intro i h1 h2
    simp only [List.length_map, List.length_range, List.length_replicate] at h1 h2
    simp [h2]

/-- On the null tile `getOrCreateData` allocates a block at `h.next`, zero-fills
it and returns it. -/
theorem Tile.getOrCreateData_null (SIZE : Nat) (h : Heap) (t : Tile) (junk : Nat → Nat)
    (hp : t._data = none) :
    Tile.getOrCreateData SIZE h t junk =
      some ((Tile.alloc SIZE h junk).1.write h.next (List.replicate (SIZE * SIZE) 0),
        { _data := some h.next }, h.next) := by
  have hdata : (Tile.alloc SIZE h junk).1.data h.next = (List.range (SIZE * SIZE)).map junk :=
    Heap.data_of_block _ _ _ (Tile.alloc_blocks_self SIZE h junk)
  have hw := Heap.write_blocks_self _ h.next (List.replicate (SIZE * SIZE) 0) _
    (Tile.alloc_blocks_self SIZE h junk)
  simp only [Tile.getOrCreateData, hp, Tile.detach_alloc, hdata, zero_block,
    QSharedDataPointer.detach_sole _ _ _ hw rfl]

/-! ## Copy on write -/

theorem Heap.ref_blocks_self (h : Heap) (p : Nat) (td : TileData) (hb : h.blocks p = some td) :
    (h.ref p).blocks p = some { ref := td.ref + 1, data := td.data } := by
  simp [Heap.ref, hb]

theorem Heap.ref_next (h : Heap) (p : Nat) : (h.ref p).next = h.next := by
  unfold Heap.ref
  cases h.blocks p <;> rfl

/-- The heart of copy on write: after `b = a`, the mutable pointer obtained
through `b` addresses a fresh block, and no write through it reaches the
pixels of `a`. -/
theorem Tile.cow_core (SIZE : Nat) (h : Heap) (a : Tile) (junk : Nat → Nat) (p : Nat)
    (td : TileData) (hp : a._data = some p) (hb : h.blocks p = some td) (hlt : p < h.next)
    (href : 1 ≤ td.ref) :
    ∃ h2, Tile.getOrCreateData SIZE (Tile.copy h a).1 (Tile.copy h a).2 junk =
        some (h2, { _data := some h.next }, h.next) ∧
      ∀ d, (h2.write h.next d).data p = h.data p := by
  have hc : Tile.copy h a = (h.ref p, a) := by simp [Tile.copy, hp]
  have hb1 := Heap.ref_blocks_self h p td hb
  have hn1 := Heap.ref_next h p
  have hr1 : ({ ref := td.ref + 1, data := td.data } : TileData).ref ≠ 1 := by
    show td.ref + 1 ≠ 1
    omega
  have hg := Tile.getOrCreateData_shared SIZE (h.ref p) a junk p _ hp hb1 (by omega) hr1
  obtain ⟨_, _, _, _, h5, _⟩ := QSharedDataPointer.detach_shared (h.ref p) p _ hb1 (by omega) hr1
  rw [hn1] at hg
  refine ⟨_, by rw [hc]; exact hg, ?_⟩
  intro d
  have h0 : td.ref + 1 - 1 ≠ 0 := by omega
  rw [Heap.data_write_other _ _ _ _ (by omega : p ≠ h.next)]
  simp only [ne_eq, h0, not_false_eq_true, if_true] at h5
  rw [Heap.data_of_block _ _ _ h5, Heap.data_of_block _ _ _ hb]

theorem Tile.copyTo_congr (SIZE : Nat) (h1 h2 : Heap) (t : Tile)
    (hd : ∀ p, t._data = some p → h1.data p = h2.data p) (buf : List Nat) :
    Tile.copyTo SIZE h1 t buf = Tile.copyTo SIZE h2 t buf := by
  unfold Tile.copyTo
  cases hp : t._data with
  | none => rfl
  | some p => simp only [hd p hp]

/-- What `copyTo` writes: the first `SIZE * SIZE` words of the buffer become
the tile's pixels (zeros for the null tile), the rest of the buffer is kept. -/
theorem Tile.copyTo_spec (SIZE : Nat) (h : Heap) (t : Tile) (buf : List Nat)
    (hv : t.valid SIZE h = true) (hbuf : SIZE * SIZE ≤ buf.length) :
    ∃ r, Tile.copyTo SIZE h t buf = some r ∧ r.length = buf.length ∧
      (∀ k, k < SIZE * SIZE →
        r.getD k 0 = match t._data with
          | none => 0
          | some p => (h.data p).getD k 0) ∧
      (∀ k, SIZE * SIZE ≤ k → r.getD k 0 = buf.getD k 0) := by
  have e0 : (0 : Int) = 4 * ((0 : Nat) : Int) := by simp
  have e1 : ((SIZE : Int) * (SIZE : Int) * 4) = 4 * ((SIZE * SIZE : Nat) : Int) := by
    push_cast; ring
  cases hp : t._data with
  | none =>
    simp only [Tile.copyTo, hp, BYTES]
    rw [e1, e0, memset_words buf 0 (SIZE * SIZE) (by omega)]
    refine ⟨_, rfl, ?_, ?_, ?_⟩
    · simp
    · intro k hk
      rw [getD_map_range]
      have h1 : k < buf.length := by omega
      have h2 : 0 ≤ k ∧ k < 0 + SIZE * SIZE := by omega
      rw [if_pos h1, if_pos h2]
    · intro k hk
      rw [getD_map_range]
      have h2 : ¬ (0 ≤ k ∧ k < 0 + SIZE * SIZE) := by omega
      rw [if_neg h2]
      by_cases h1 : k < buf.length
      · rw [if_pos h1]
      · rw [if_neg h1, getD_beyond buf k (by omega)]
  | some p =>
    obtain ⟨td, hb, _, _, hl⟩ := Tile.valid_some SIZE h t p hp hv
    have hdl : (h.data p).length = SIZE * SIZE := by rw [Heap.data_of_block _ _ _ hb, hl]
    simp only [Tile.copyTo, hp, BYTES]
    rw [e1, e0, memcpy_words buf (h.data p) 0 0 (SIZE * SIZE) (by omega) (by omega)]
    refine ⟨_, rfl, ?_, ?_, ?_⟩
    · simp
    · intro k hk
      rw [getD_map_range]
      have h1 : k < buf.length := by omega
      have h2 : 0 ≤ k ∧ k < 0 + SIZE * SIZE := by omega
      rw [if_pos h1, if_pos h2]
      congr 1
      omega
    · intro k hk
      rw [getD_map_range]
      have h2 : ¬ (0 ≤ k ∧ k < 0 + SIZE * SIZE) := by omega
      rw [if_neg h2]
      by_cases h1 : k < buf.length
      · rw [if_pos h1]
      · rw [if_neg h1, getD_beyond buf k (by omega)]

/-- When its assertions hold, `composite` writes the primitive's result through
the pointer `getOrCreateData` returns. -/
theorem Tile.composite_eq (SIZE : Nat)
    (compositeMask : Int → List Nat → Int → Nat → List Nat → Int → Int → Int → Int → List Nat)
    (h : Heap) (t : Tile) (junk : Nat → Nat) (mode : Int) (values : List Nat) (color : QColor)
    (x y w hh skip : Int) (h1 : Heap) (t1 : Tile) (q : Nat)
    (ha : x ≥ 0 ∧ x < (SIZE : Int) ∧ y ≥ 0 ∧ y < (SIZE : Int))
    (hb : (x + w) ≤ (SIZE : Int) ∧ (y + hh) ≤ (SIZE : Int))
    (hg : Tile.getOrCreateData SIZE h t junk = some (h1, t1, q)) :
    Tile.composite SIZE compositeMask h t junk mode values color x y w hh skip =
      some (h1.write q (compositeMask mode (h1.data q) (4 * (y * SIZE + x)) color.rgba values
        w hh skip (SIZE - w)), t1) := by
  simp only [Tile.composite, ha, hb, and_self, not_true_eq_false, if_false, hg]

/-- With a non-null source, `merge` writes the primitive's result through the
pointer `getOrCreateData` returns. -/
theorem Tile.merge_eq (SIZE : Nat)
    (compositePixels : Int → List Nat → List Nat → Int → Nat → List Nat)
    (h : Heap) (t : Tile) (junk : Nat → Nat) (tile : Tile) (opacity : Nat) (blend : Int)
    (h1 : Heap) (t1 : Tile) (q sp : Nat) (hs : tile._data = some sp)
    (hg : Tile.getOrCreateData SIZE h t junk = some (h1, t1, q)) :
    Tile.merge SIZE compositePixels h t junk tile opacity blend =
      some (h1.write q (compositePixels blend (h1.data q) (h1.data sp) (SIZE * SIZE) opacity),
        t1) := by
  have ht : tile.isNull = false := by simp [Tile.isNull, hs]
  simp only [Tile.merge, ht, Bool.not_false, if_true, hg, hs]

/-- C1. Copy on write: let `a` be a valid non-null tile and `b` a copy of it.
Whatever is written through the pointer `b.getOrCreateData()` returns, and
whatever `b.composite(...)` or `b.merge(...)` (non-null source) write, `copyTo`
on `a` afterwards returns exactly what it returned before the copy was made
(and it does return a buffer). -/
theorem C1_copy_on_write (SIZE : Nat)
    (compositeMask : Int → List Nat → Int → Nat → List Nat → Int → Int → Int → Int → List Nat)
    (compositePixels : Int → List Nat → List Nat → Int → Nat → List Nat)
    (h : Heap) (a : Tile) (junk : Nat → Nat)
    (hnn : a.isNull = false) (hv : a.valid SIZE h = true) :
    (∀ buf, SIZE * SIZE ≤ buf.length → ∃ r, Tile.copyTo SIZE h a buf = some r) ∧
    (∃ h2 b2 q, Tile.getOrCreateData SIZE (Tile.copy h a).1 (Tile.copy h a).2 junk =
        some (h2, b2, q) ∧
      ∀ d buf, Tile.copyTo SIZE (h2.write q d) a buf = Tile.copyTo SIZE h a buf) ∧
    (∀ mode values color x y w hh skip,
      (x ≥ 0 ∧ x < (SIZE : Int) ∧ y ≥ 0 ∧ y < (SIZE : Int)) →
      ((x + w) ≤ (SIZE : Int) ∧ (y + hh) ≤ (SIZE : Int)) →
      ∃ h2 b2, Tile.composite SIZE compositeMask (Tile.copy h a).1 (Tile.copy h a).2 junk
          mode values color x y w hh skip = some (h2, b2) ∧
        ∀ buf, Tile.copyTo SIZE h2 a buf = Tile.copyTo SIZE h a buf) ∧
    (∀ tile opacity blend, tile.isNull = false →
      ∃ h2 b2, Tile.merge SIZE compositePixels (Tile.copy h a).1 (Tile.copy h a).2 junk
          tile opacity blend = some (h2, b2) ∧
        ∀ buf, Tile.copyTo SIZE h2 a buf = Tile.copyTo SIZE h a buf) := by
  cases hp : a._data with
  | none => simp [Tile.isNull, hp] at hnn
  | some p =>
    obtain ⟨td, hb, hlt, href, _⟩ := Tile.valid_some SIZE h a p hp hv
    obtain ⟨h2, hg, hd⟩ := Tile.cow_core SIZE h a junk p td hp hb hlt href
    have key : ∀ d buf, Tile.copyTo SIZE (h2.write h.next d) a buf = Tile.copyTo SIZE h a buf := by
      intro d buf
      apply Tile.copyTo_congr
      intro q hq
      rw [hp] at hq
      cases hq
      exact hd d
    refine ⟨?_, ⟨h2, _, _, hg, key⟩, ?_, ?_⟩
    · intro buf hbuf
      obtain ⟨r, hr, _⟩ := Tile.copyTo_spec SIZE h a buf hv hbuf
      exact ⟨r, hr⟩
    · intro mode values color x y w hh skip h1 h2a
      exact ⟨_, _, Tile.composite_eq SIZE compositeMask _ _ junk mode values color x y w hh skip
        _ _ _ h1 h2a hg, fun buf => key _ buf⟩
    · intro tile opacity blend ht
      cases hs : tile._data with
      | none => simp [Tile.isNull, hs] at ht
      | some sp =>
        exact ⟨_, _, Tile.merge_eq SIZE compositePixels _ _ junk tile opacity blend _ _ _ sp hs hg,
          fun buf => key _ buf⟩

theorem C1_copy_on_write_witness :
    ∃ h2 b2 q, Tile.getOrCreateData 2 (Tile.copy sampleHeap sampleTile).1
        (Tile.copy sampleHeap sampleTile).2 (fun _ => 7) = some (h2, b2, q) ∧
      ∀ d buf, Tile.copyTo 2 (h2.write q d) sampleTile buf =
        Tile.copyTo 2 sampleHeap sampleTile buf :=
  (C1_copy_on_write 2 sampleMask samplePixels sampleHeap sampleTile (fun _ => 7)
    (by decide) (by decide)).2.1

/-! ## Writing a tile into an image -/

theorem ext_getD (l1 l2 : List Nat) (hl : l1.length = l2.length)
    (hg : ∀ k, l1.getD k 0 = l2.getD k 0) : l1 = l2 := by
  apply List.ext_getElem hl
  intro k h1 h2
  have := hg k
  rw [List.getD_eq_getElem l1 0 h1, List.getD_eq_getElem l2 0 h2] at this
  exact this

/-- What `copyToImage` writes, at the level of image words: with `s` words per
scan line, word `(y + j) * s + (x + i)` receives tile pixel `(i, j)` for every
`(i, j)` of the clamped rectangle, and every other word is kept. -/
theorem Tile.copyToImage_spec (SIZE : Nat) (h : Heap) (t : Tile) (img : QImage)
    (x y s : Nat) (hs : img.bytesPerLine = 4 * s) (hws : img.width ≤ s)
    (hlen : img.bits.length = s * img.height)
    (hx : x < img.width) (hy : y < img.height) (hv : t.valid SIZE h = true) :
    ∃ b, Tile.copyToImage SIZE h t img x y = some { img with bits := b } ∧
      b.length = img.bits.length ∧
      (∀ i j, i < min SIZE (img.width - x) → j < min SIZE (img.height - y) →
        b.getD ((y + j) * s + (x + i)) 0 = Tile.pixel SIZE h t i j) ∧
      (∀ k, (∀ i j, i < min SIZE (img.width - x) → j < min SIZE (img.height - y) →
          k ≠ (y + j) * s + (x + i)) → b.getD k 0 = img.bits.getD k 0) := by
  have hw : (4 * (if (img.width : Int) - (x : Int) < (SIZE : Int) then
      (img.width : Int) - (x : Int) else (SIZE : Int))) =
      4 * ((min SIZE (img.width - x) : Nat) : Int) := by
    split <;> omega
  have hh : (if (img.height : Int) - (y : Int) < (SIZE : Int) then
      (img.height : Int) - (y : Int) else (SIZE : Int)) =
      ((min SIZE (img.height - y) : Nat) : Int) := by
    split <;> omega
  have e2 : ((y : Int) * ((img.bytesPerLine : Nat) : Int) + (x : Int) * 4) =
      4 * ((y * s + x : Nat) : Int) := by
    rw [hs]; push_cast; ring
  have e5 : ((img.bytesPerLine : Nat) : Int) = 4 * (s : Int) := by rw [hs]; push_cast; ring
  have e0 : (0 : Int) = 4 * ((0 : Nat) : Int) := by simp
  have hwn : min SIZE (img.width - x) ≤ s := by omega
  have hdst : ∀ r, r < min SIZE (img.height - y) →
      y * s + x + r * s + min SIZE (img.width - x) ≤ img.bits.length := by
    intro r hr
    rw [hlen]
    have := row_in_image s img.height img.width (y + r) x
      (min SIZE (img.width - x)) (by omega) (by omega) hws
    rw [Nat.add_mul] at this
    omega
  have eidx : ∀ i j, y * s + x + j * s + i = (y + j) * s + (x + i) := by
    intro i j
    rw [Nat.add_mul]
    omega
  cases hp : t._data with
  | none =>
    obtain ⟨res, hres, hrl, hra, hrb⟩ := zeroRows_words (min SIZE (img.width - x)) s hwn
      (min SIZE (img.height - y)) img.bits (y * s + x) hdst
    refine ⟨res, ?_, hrl, ?_, ?_⟩
    · simp only [Tile.copyToImage, hp, hw, hh, Int.toNat_ofNat, e2]
      rw [e5, hres]
    · intro i j hi hj
      rw [← eidx, hra j i hj hi]
      simp [Tile.pixel, hp]
    · intro k hk
      apply hrb
      intro r c hr hc
      rw [eidx]
      exact hk c r hc hr
  | some p =>
    obtain ⟨td, hb, _, _, hl⟩ := Tile.valid_some SIZE h t p hp hv
    have hdl : (h.data p).length = SIZE * SIZE := by rw [Heap.data_of_block _ _ _ hb, hl]
    obtain ⟨res, hres, hrl, hra, hrb⟩ := copyRows_words (h.data p) (min SIZE (img.width - x))
      s SIZE hwn (min SIZE (img.height - y)) img.bits (y * s + x) 0
      (by
        intro r hr
        refine ⟨hdst r hr, ?_⟩
        rw [hdl]
        have := row_in_block SIZE r (min SIZE (img.width - x)) (by omega)
          (Nat.min_le_left _ _)
        omega)
    refine ⟨res, ?_, hrl, ?_, ?_⟩
    · simp only [Tile.copyToImage, hp, hw, hh, Int.toNat_ofNat, e2]
      rw [e5, e0, hres]
    · intro i j hi hj
      rw [← eidx, hra j i hj hi]
      simp [Tile.pixel, hp]
    · intro k hk
      apply hrb
      intro r c hr hc
      rw [eidx]
      exact hk c r hc hr

/-- C9. `copyToImage`: for an offset inside the image the call returns the
image with pixel `(x + i, y + j)` equal to tile pixel `(i, j)` (0 for the null
tile) on the clamped rectangle, and with every other pixel unchanged. -/
theorem C9_copyToImage (SIZE : Nat) (h : Heap) (t : Tile) (img : QImage) (x y : Nat)
    (hwf : img.wellFormed) (hx : x < img.width) (hy : y < img.height)
    (hv : t.valid SIZE h = true) :
    ∃ img1, Tile.copyToImage SIZE h t img x y = some img1 ∧
      img1.width = img.width ∧ img1.height = img.height ∧
      img1.bytesPerLine = img.bytesPerLine ∧ img1.format = img.format ∧
      (∀ i j, i < min SIZE (img.width - x) → j < min SIZE (img.height - y) →
        img1.pixel (x + i) (y + j) = Tile.pixel SIZE h t i j) ∧
      (∀ u v, u < img.width → v < img.height →
        ¬ (x ≤ u ∧ u < x + min SIZE (img.width - x) ∧
           y ≤ v ∧ v < y + min SIZE (img.height - y)) →
        img1.pixel u v = img.pixel u v) := by
  obtain ⟨s, hs, hws, hlen⟩ := QImage.wellFormed_words img hwf
  obtain ⟨b, hb, _, ha, hbb⟩ := Tile.copyToImage_spec SIZE h t img x y s hs hws hlen hx hy hv
  refine ⟨{ img with bits := b }, hb, rfl, rfl, rfl, rfl, ?_, ?_⟩
  · intro i j hi hj
    rw [QImage.pixel_words { img with bits := b } s _ _ hs]
    exact ha i j hi hj
  · intro u v hu hv2 hout
    rw [QImage.pixel_words { img with bits := b } s _ _ hs, QImage.pixel_words img s _ _ hs]
    apply hbb
    intro i j hi hj heq
    have h1 := rowcol_unique s v u (y + j) (x + i) (by omega) (by omega) heq
    omega

theorem C9_copyToImage_witness :
    ∃ img1, Tile.copyToImage 2 sampleHeap sampleTile sampleImage ((2 : Nat) : Int)
        ((1 : Nat) : Int) = some img1 ∧
      img1.width = sampleImage.width ∧ img1.height = sampleImage.height ∧
      img1.bytesPerLine = sampleImage.bytesPerLine ∧ img1.format = sampleImage.format ∧
      (∀ i j, i < min 2 (sampleImage.width - 2) → j < min 2 (sampleImage.height - 1) →
        img1.pixel (2 + i) (1 + j) = Tile.pixel 2 sampleHeap sampleTile i j) ∧
      (∀ u v, u < sampleImage.width → v < sampleImage.height →
        ¬ (2 ≤ u ∧ u < 2 + min 2 (sampleImage.width - 2) ∧
           1 ≤ v ∧ v < 1 + min 2 (sampleImage.height - 1)) →
        img1.pixel u v = sampleImage.pixel u v) :=
  C9_copyToImage 2 sampleHeap sampleTile sampleImage 2 1
    ⟨by decide, by decide, by decide⟩ (by decide) (by decide) (by decide)

/-- The tile built by the image constructor is valid in the heap it returns. -/
theorem Tile.ofImage_valid (SIZE : Nat) (h : Heap) (junk : Nat → Nat) (r : List Nat)
    (hr : r.length = SIZE * SIZE) :
    Tile.valid SIZE ((Tile.alloc SIZE h junk).1.write h.next r) { _data := some h.next }
      = true := by
  have hw := Heap.write_blocks_self _ h.next r _ (Tile.alloc_blocks_self SIZE h junk)
  simp [Tile.valid, hw, Heap.write_next, Tile.alloc_next, hr]

/-- C4. Round trip, image side: writing the tile extracted at `(x, y)` back at
`(x, y)` returns the image unchanged (every word of its buffer, hence every
pixel), whether or not the tile is clamped at an edge. -/
theorem C4_roundtrip_image (SIZE : Nat) (h : Heap) (junk : Nat → Nat) (img : QImage)
    (x y : Nat) (hwf : img.wellFormed) (hfmt : img.format = QImage.Format.Format_ARGB32)
    (hx : x < img.width) (hy : y < img.height) :
    ∃ h1 t, Tile.ofImage SIZE h junk img x y = some (h1, t) ∧
      Tile.copyToImage SIZE h1 t img x y = some img := by
  obtain ⟨r, hr, hrl, hpix⟩ := Tile.ofImage_spec SIZE h junk img x y hwf hfmt hx hy
  obtain ⟨s, hs, hws, hlen⟩ := QImage.wellFormed_words img hwf
  have hv := Tile.ofImage_valid SIZE h junk r hrl
  obtain ⟨b, hb, hbl, ha, hbb⟩ := Tile.copyToImage_spec SIZE _ _ img x y s hs hws hlen hx hy hv
  refine ⟨_, _, hr, ?_⟩
  rw [hb]
  have hbe : b = img.bits := by
    apply ext_getD b img.bits hbl
    intro k
    by_cases hk : ∃ i j, i < min SIZE (img.width - x) ∧ j < min SIZE (img.height - y) ∧
        k = (y + j) * s + (x + i)
    · obtain ⟨i, j, hi, hj, rfl⟩ := hk
      rw [ha i j hi hj]
      simp only [Tile.pixel]
      rw [Heap.data_write_self _ _ _ _ (Tile.alloc_blocks_self SIZE h junk),
        hpix i j (by omega) (by omega), if_pos ⟨hi, hj⟩, QImage.pixel_words img s _ _ hs]
    · apply hbb
      intro i j hi hj heq
      exact hk ⟨i, j, hi, hj, heq⟩
  rw [hbe]

theorem C4_roundtrip_image_witness :
    ∃ h1 t, Tile.ofImage 2 Heap.empty (fun _ => 99) sampleImage ((2 : Nat) : Int)
        ((1 : Nat) : Int) = some (h1, t) ∧
      Tile.copyToImage 2 h1 t sampleImage ((2 : Nat) : Int) ((1 : Nat) : Int)
        = some sampleImage :=
  C4_roundtrip_image 2 Heap.empty (fun _ => 99) sampleImage 2 1
    ⟨by decide, by decide, by decide⟩ rfl (by decide) (by decide)

/-- The buffer `copyTo` returns holds tile pixel `(i, j)` at word
`j * SIZE + i`. -/
theorem Tile.copyTo_pixels (SIZE : Nat) (h : Heap) (t : Tile) (buf : List Nat)
    (hv : t.valid SIZE h = true) (hbuf : SIZE * SIZE ≤ buf.length) :
    ∃ r, Tile.copyTo SIZE h t buf = some r ∧ r.length = buf.length ∧
      (∀ i j, i < SIZE → j < SIZE → r.getD (j * SIZE + i) 0 = Tile.pixel SIZE h t i j) ∧
      (∀ k, SIZE * SIZE ≤ k → r.getD k 0 = buf.getD k 0) := by
  obtain ⟨r, hr, hl, ha, hb⟩ := Tile.copyTo_spec SIZE h t buf hv hbuf
  refine ⟨r, hr, hl, ?_, hb⟩
  intro i j hi hj
  have hk : j * SIZE + i < SIZE * SIZE := by
    have := row_in_block SIZE j (i + 1) hj (by omega)
    omega
  rw [ha _ hk]
  unfold Tile.pixel
  cases t._data <;> rfl

/-- Two tiles with the same pixels give the same `copyTo` result. -/
theorem Tile.copyTo_eq_of_pixels (SIZE : Nat) (h1 h2 : Heap) (t1 t2 : Tile) (buf : List Nat)
    (hv1 : t1.valid SIZE h1 = true) (hv2 : t2.valid SIZE h2 = true)
    (hbuf : SIZE * SIZE ≤ buf.length)
    (hpix : ∀ i j, i < SIZE → j < SIZE → Tile.pixel SIZE h1 t1 i j = Tile.pixel SIZE h2 t2 i j) :
    ∃ r, Tile.copyTo SIZE h1 t1 buf = some r ∧ Tile.copyTo SIZE h2 t2 buf = some r := by
  obtain ⟨r1, hr1, hl1, ha1, hb1⟩ := Tile.copyTo_pixels SIZE h1 t1 buf hv1 hbuf
  obtain ⟨r2, hr2, hl2, ha2, hb2⟩ := Tile.copyTo_pixels SIZE h2 t2 buf hv2 hbuf
  have he : r1 = r2 := by
    apply ext_getD r1 r2 (by rw [hl1, hl2])
    intro k
    by_cases hk : k < SIZE * SIZE
    · have hS : 0 < SIZE := by
        rcases Nat.eq_zero_or_pos SIZE with h0 | h0
        · rw [h0] at hk; simp at hk
        · exact h0
      have hj : k / SIZE < SIZE := Nat.div_lt_of_lt_mul hk
      have hi : k % SIZE < SIZE := Nat.mod_lt _ hS
      have hk2 : k = (k / SIZE) * SIZE + k % SIZE := by
        rw [Nat.mul_comm]; exact (Nat.div_add_mod k SIZE).symm
      rw [hk2, ha1 _ _ hi hj, ha2 _ _ hi hj, hpix _ _ hi hj]
    · rw [hb1 k (by omega), hb2 k (by omega)]
  exact ⟨r1, hr1, by rw [he]; exact hr2⟩

/-- C3 (as the code has it). Round trip, tile side: after
`t.copyToImage(img, x, y)` the tile `Tile(img, x, y)` has pixel `(i, j)` equal
to that of `t` inside the clamped rectangle and 0 outside it; when the tile
lies wholly inside the image, `copyTo` returns the same content for both. -/
theorem C3_roundtrip_tile (SIZE : Nat) (h : Heap) (junk : Nat → Nat) (t : Tile) (img : QImage)
    (x y : Nat) (hwf : img.wellFormed) (hfmt : img.format = QImage.Format.Format_ARGB32)
    (hx : x < img.width) (hy : y < img.height) (hv : t.valid SIZE h = true) :
    ∃ img1 h1 t1, Tile.copyToImage SIZE h t img x y = some img1 ∧
      Tile.ofImage SIZE h junk img1 x y = some (h1, t1) ∧
      (∀ i j, i < SIZE → j < SIZE →
        Tile.pixel SIZE h1 t1 i j =
          if i < min SIZE (img.width - x) ∧ j < min SIZE (img.height - y) then
            Tile.pixel SIZE h t i j
          else 0) ∧
      (x + SIZE ≤ img.width → y + SIZE ≤ img.height →
        ∀ buf, SIZE * SIZE ≤ buf.length →
          ∃ r, Tile.copyTo SIZE h1 t1 buf = some r ∧ Tile.copyTo SIZE h t buf = some r) := by
  obtain ⟨s, hs, hws, hlen⟩ := QImage.wellFormed_words img hwf
  obtain ⟨b, hb, hbl, ha, _⟩ := Tile.copyToImage_spec SIZE h t img x y s hs hws hlen hx hy hv
  have hwf1 : QImage.wellFormed { img with bits := b } := by
    obtain ⟨w1, w2, w3⟩ := hwf
    exact ⟨w1, w2, by show 4 * b.length = _; rw [hbl]; exact w3⟩
  obtain ⟨r, hr, hrl, hpix⟩ := Tile.ofImage_spec SIZE h junk { img with bits := b } x y hwf1
    hfmt hx hy
  have hv1 := Tile.ofImage_valid SIZE h junk r hrl
  have hp1 : ∀ i j, i < SIZE → j < SIZE →
      Tile.pixel SIZE ((Tile.alloc SIZE h junk).1.write h.next r) { _data := some h.next } i j =
        if i < min SIZE (img.width - x) ∧ j < min SIZE (img.height - y) then
          Tile.pixel SIZE h t i j
        else 0 := by
    intro i j hi hj
    simp only [Tile.pixel]
    rw [Heap.data_write_self _ _ _ _ (Tile.alloc_blocks_self SIZE h junk), hpix i j hi hj]
    by_cases hc : i < min SIZE (img.width - x) ∧ j < min SIZE (img.height - y)
    · rw [if_pos hc, if_pos hc, QImage.pixel_words { img with bits := b } s _ _ hs,
        ha i j hc.1 hc.2]
      rfl
    · rw [if_neg hc, if_neg hc]
  refine ⟨_, _, _, hb, hr, hp1, ?_⟩
  intro hxs hys buf hbuf
  apply Tile.copyTo_eq_of_pixels SIZE _ h _ t buf hv1 hv hbuf
  intro i j hi hj
  rw [hp1 i j hi hj, if_pos ⟨by omega, by omega⟩]

theorem C3_roundtrip_tile_witness :
    ∃ img1 h1 t1, Tile.copyToImage 2 sampleHeap sampleTile sampleImage ((1 : Nat) : Int)
        ((0 : Nat) : Int) = some img1 ∧
      Tile.ofImage 2 sampleHeap (fun _ => 99) img1 ((1 : Nat) : Int) ((0 : Nat) : Int)
        = some (h1, t1) ∧
      (∀ i j, i < 2 → j < 2 →
        Tile.pixel 2 h1 t1 i j =
          if i < min 2 (sampleImage.width - 1) ∧ j < min 2 (sampleImage.height - 0) then
            Tile.pixel 2 sampleHeap sampleTile i j
          else 0) ∧
      (1 + 2 ≤ sampleImage.width → 0 + 2 ≤ sampleImage.height →
        ∀ buf, 2 * 2 ≤ buf.length →
          ∃ r, Tile.copyTo 2 h1 t1 buf = some r ∧
            Tile.copyTo 2 sampleHeap sampleTile buf = some r) :=
  C3_roundtrip_tile 2 sampleHeap (fun _ => 99) sampleTile sampleImage 1 0
    ⟨by decide, by decide, by decide⟩ rfl (by decide) (by decide) (by decide)

/-- C3 as stated fails at an edge: with `SIZE = 2`, writing the all-red tile at
`(2, 1)` of the 3 x 2 image and extracting it again gives a tile with one red
pixel and three zero pixels, while the original tile has four red pixels. -/
theorem C3_roundtrip_tile_counterexample :
    ((Tile.copyToImage 2 sampleHeap sampleTile sampleImage 2 1).bind fun img1 =>
      (Tile.ofImage 2 sampleHeap (fun _ => 99) img1 2 1).bind fun r =>
        Tile.copyTo 2 r.1 r.2 [0, 0, 0, 0]) = some [4294901760, 0, 0, 0] ∧
    Tile.copyTo 2 sampleHeap sampleTile [0, 0, 0, 0] =
      some [4294901760, 4294901760, 4294901760, 4294901760] := by
  decide

/-! ## Merging a null source -/

/-- C5. `merge` with the null tile as source returns the heap and the handle it
was given: the pixel content is identical, a null tile stays null, and no
block is allocated. -/
theorem C5_merge_null (SIZE : Nat)
    (compositePixels : Int → List Nat → List Nat → Int → Nat → List Nat)
    (h : Heap) (t : Tile) (junk : Nat → Nat) (opacity : Nat) (blend : Int) :
    ∃ h1 t1, Tile.merge SIZE compositePixels h t junk Tile.null opacity blend = some (h1, t1) ∧
      (∀ buf, Tile.copyTo SIZE h1 t1 buf = Tile.copyTo SIZE h t buf) ∧
      Tile.pixels SIZE h1 t1 = Tile.pixels SIZE h t ∧
      (t.isNull = true → t1.isNull = true) ∧
      h1.next = h.next ∧ h1.count = h.count ∧ (∀ p, h1.blocks p = h.blocks p) :=
  ⟨h, t, rfl, fun _ => rfl, rfl, fun hn => hn, rfl, rfl, fun _ => rfl⟩

/-! ## Blank detection -/

theorem and_alpha_mask (p : Nat) : p &&& 0xff000000 = ((p >>> 24) &&& 0xff) <<< 24 := by
  apply Nat.eq_of_testBit_eq
  intro j
  have hm : (0xff000000 : Nat) = 0xff <<< 24 := by decide
  rw [hm]
  simp only [Nat.testBit_and, Nat.testBit_shiftLeft, Nat.testBit_shiftRight]
  by_cases hj : j ≥ 24
  · have e : 24 + (j - 24) = j := by omega
    simp [hj, e]
  · simp [hj]

theorem alpha_mask_zero (p : Nat) : p &&& 0xff000000 = 0 ↔ qAlpha p = 0 := by
  have h1 : (0xff : Nat) = 2 ^ 8 - 1 := by decide
  rw [and_alpha_mask, h1, Nat.and_pow_two_sub_one_eq_mod, Nat.shiftLeft_eq,
    Nat.shiftRight_eq_div_pow]
  unfold qAlpha
  constructor
  · intro h
    rcases Nat.mul_eq_zero.mp h with h2 | h2
    · exact h2
    · exact absurd h2 (by decide)
  · intro h
    have h3 : p / 2 ^ 24 % 2 ^ 8 = 0 := h
    rw [h3, Nat.zero_mul]

theorem Tile.isBlankLoop_iff (data : List Nat) :
    ∀ (n i : Nat), Tile.isBlankLoop data n i = true ↔
      ∀ k, i ≤ k → k < i + n → qAlpha (data.getD k 0) = 0 := by
  intro n
  induction n with
  | zero =>
    intro i
    simp only [Tile.isBlankLoop, true_iff]
    intro k h1 h2
    omega
  | succ n ih =>
    intro i
    simp only [Tile.isBlankLoop]
    by_cases hz : data.getD i 0 &&& 0xff000000 = 0
    · have hne : ¬ (data.getD i 0 &&& 0xff000000 ≠ 0) := fun hc => hc hz
      rw [if_neg hne, ih (i + 1)]
      constructor
      · intro hall k h1 h2
        by_cases hk : k = i
        · rw [hk]; exact (alpha_mask_zero _).mp hz
        · exact hall k (by omega) (by omega)
      · intro hall k h1 h2
        exact hall k (by omega) (by omega)
    · rw [if_pos hz]
      constructor
      · intro hf
        exact absurd hf (by decide)
      · intro hall
        exact absurd ((alpha_mask_zero _).mpr (hall i (Nat.le_refl i) (by omega))) hz

theorem index_split (SIZE k : Nat) (hk : k < SIZE * SIZE) :
    k / SIZE < SIZE ∧ k % SIZE < SIZE ∧ k = (k / SIZE) * SIZE + k % SIZE := by
  have hS : 0 < SIZE := by
    rcases Nat.eq_zero_or_pos SIZE with h0 | h0
    · rw [h0] at hk; simp at hk
    · exact h0
  refine ⟨Nat.div_lt_of_lt_mul hk, Nat.mod_lt _ hS, ?_⟩
  rw [Nat.mul_comm]
  exact (Nat.div_add_mod k SIZE).symm

/-- The characterisation of `isBlank` by the alpha of the pixels. -/
theorem Tile.isBlank_iff (SIZE : Nat) (h : Heap) (t : Tile) :
    Tile.isBlank SIZE h t = true ↔
      (t.isNull = true ∨
        ∀ i j, i < SIZE → j < SIZE → qAlpha (Tile.pixel SIZE h t i j) = 0) := by
  cases hp : t._data with
  | none => simp [Tile.isBlank, Tile.isNull, hp]
  | some p =>
    have hn : t.isNull = false := by simp [Tile.isNull, hp]
    simp only [Tile.isBlank, hn, hp, Tile.pixel, Bool.false_eq_true, if_false, false_or]
    rw [Tile.isBlankLoop_iff]
    constructor
    · intro hall i j hi hj
      apply hall
      · omega
      · have := row_in_block SIZE j (i + 1) hj (by omega)
        omega
    · intro hall k _ hk
      obtain ⟨h1, h2, h3⟩ := index_split SIZE k (by omega)
      rw [h3]
      exact hall _ _ h2 h1

/-- C6. `isBlank` is true exactly when the tile is null or each of its
`SIZE * SIZE` pixels has alpha, the top 8 of its 32 bits, zero; so two tiles
whose pixels agree in alpha (whatever their colour bits) get the same answer. -/
theorem C6_isBlank (SIZE : Nat) (h : Heap) (t : Tile) :
    (Tile.isBlank SIZE h t = true ↔
      (t.isNull = true ∨
        ∀ i j, i < SIZE → j < SIZE → qAlpha (Tile.pixel SIZE h t i j) = 0)) ∧
    (∀ (h2 : Heap) (t2 : Tile), t2.isNull = t.isNull →
      (∀ i j, i < SIZE → j < SIZE →
        qAlpha (Tile.pixel SIZE h2 t2 i j) = qAlpha (Tile.pixel SIZE h t i j)) →
      Tile.isBlank SIZE h2 t2 = Tile.isBlank SIZE h t) := by
  refine ⟨Tile.isBlank_iff SIZE h t, ?_⟩
  intro h2 t2 hnull hal
  rw [Bool.eq_iff_iff, Tile.isBlank_iff SIZE h2 t2, Tile.isBlank_iff SIZE h t, hnull]
  constructor
  · rintro (h1 | h1)
    · exact Or.inl h1
    · exact Or.inr (fun i j hi hj => by rw [← hal i j hi hj]; exact h1 i j hi hj)
  · rintro (h1 | h1)
    · exact Or.inl h1
    · exact Or.inr (fun i j hi hj => by rw [hal i j hi hj]; exact h1 i j hi hj)

/-! ## Solid fill -/

theorem getD_set (l : List Nat) (i k v : Nat) :
    (l.set i v).getD k 0 = if k = i ∧ i < l.length then v else l.getD k 0 := by
  by_cases hk : k = i
  · subst hk
    by_cases hl : k < l.length
    · simp [List.getD, hl]
    · have h1 : ¬ (k = k ∧ k < l.length) := fun hc => hl hc.2
      rw [if_neg h1, getD_beyond _ _ (by simp; omega), getD_beyond _ _ (by omega)]
  · have h1 : ¬ (k = i ∧ i < l.length) := fun hc => hk hc.1
    have h2 : i ≠ k := fun hc => hk hc.symm
    rw [if_neg h1]
    simp [List.getD, List.getElem?_set_ne h2]

theorem Tile.fillLoop_spec (col : Nat) :
    ∀ (n i : Nat) (data : List Nat),
      (Tile.fillLoop col n i data).length = data.length ∧
      ∀ k, (Tile.fillLoop col n i data).getD k 0 =
        if i ≤ k ∧ k < i + n ∧ k < data.length then col else data.getD k 0 := by
  intro n
  induction n with
  | zero =>
    intro i data
    refine ⟨rfl, ?_⟩
    intro k
    have h1 : ¬ (i ≤ k ∧ k < i + 0 ∧ k < data.length) := by omega
    rw [if_neg h1]
    rfl
  | succ n ih =>
    intro i data
    obtain ⟨hl, hg⟩ := ih (i + 1) (data.set i col)
    simp only [Tile.fillLoop]
    refine ⟨by rw [hl, List.length_set], ?_⟩
    intro k
    rw [hg k, List.length_set, getD_set]
    by_cases h1 : i + 1 ≤ k ∧ k < i + 1 + n ∧ k < data.length
    · have h2 : i ≤ k ∧ k < i + (n + 1) ∧ k < data.length := by omega
      rw [if_pos h1, if_pos h2]
    · rw [if_neg h1]
      by_cases h3 : k = i ∧ i < data.length
      · have h2 : i ≤ k ∧ k < i + (n + 1) ∧ k < data.length := by omega
        rw [if_pos h3, if_pos h2]
      · have h2 : ¬ (i ≤ k ∧ k < i + (n + 1) ∧ k < data.length) := by omega
        rw [if_neg h3, if_neg h2]

theorem qAlpha_qRgba (r g b a : Nat) (hr : r < 256) (hg : g < 256) (hb : b < 256)
    (ha : a < 256) : qAlpha (qRgba r g b a) = a := by
  have h1 : (0xff : Nat) = 2 ^ 8 - 1 := by decide
  unfold qRgba qAlpha
  rw [h1]
  simp only [Nat.and_pow_two_sub_one_eq_mod, Nat.shiftLeft_eq]
  have er : r % 2 ^ 8 = r := Nat.mod_eq_of_lt hr
  have eg : g % 2 ^ 8 = g := Nat.mod_eq_of_lt hg
  have eb : b % 2 ^ 8 = b := Nat.mod_eq_of_lt hb
  have ea : a % 2 ^ 8 = a := Nat.mod_eq_of_lt ha
  rw [er, eg, eb, ea, Nat.or_assoc, Nat.or_assoc]
  have hrest : r * 2 ^ 16 ||| (g * 2 ^ 8 ||| b) < 2 ^ 24 := by
    apply Nat.or_lt_two_pow
    · omega
    · apply Nat.or_lt_two_pow
      · omega
      · omega
  rw [Nat.mul_comm a (2 ^ 24), ← Nat.mul_add_lt_is_or hrest a]
  omega

theorem QColor.qAlpha_rgba (c : QColor) : qAlpha c.rgba = c.alpha.val :=
  qAlpha_qRgba _ _ _ _ c.red.isLt c.green.isLt c.blue.isLt c.alpha.isLt

/-- What the colour constructor builds: a fresh block at `h.next` whose pixel
array is `SIZE * SIZE` copies of the packed colour. -/
theorem Tile.ofColor_spec (SIZE : Nat) (h : Heap) (junk : Nat → Nat) (c : QColor) :
    ∃ r, Tile.ofColor SIZE h junk c =
        ((Tile.alloc SIZE h junk).1.write h.next r, { _data := some h.next }) ∧
      r = List.replicate (SIZE * SIZE) c.rgba := by
  have hdata : (Tile.alloc SIZE h junk).1.data h.next = (List.range (SIZE * SIZE)).map junk :=
    Heap.data_of_block _ _ _ (Tile.alloc_blocks_self SIZE h junk)
  refine ⟨Tile.fillLoop c.rgba (SIZE * SIZE) 0 ((List.range (SIZE * SIZE)).map junk),
    by simp only [Tile.ofColor, Tile.detach_alloc, hdata], ?_⟩
  obtain ⟨hl, hg⟩ := Tile.fillLoop_spec c.rgba (SIZE * SIZE) 0 ((List.range (SIZE * SIZE)).map junk)
  apply ext_getD
  · rw [hl]; simp
  · intro k
    rw [hg k]
    simp only [List.length_map, List.length_range]
    by_cases hk : k < SIZE * SIZE
    · have h1 : 0 ≤ k ∧ k < 0 + SIZE * SIZE ∧ k < SIZE * SIZE := by omega
      rw [if_pos h1, List.getD_eq_getElem _ 0 (by simp; exact hk)]
      simp
    · have h1 : ¬ (0 ≤ k ∧ k < 0 + SIZE * SIZE ∧ k < SIZE * SIZE) := by omega
      rw [if_neg h1, getD_beyond _ _ (by simp; omega), getD_beyond _ _ (by simp; omega)]

/-- C7. Solid fill: `Tile(c)` is a non-null tile all of whose `SIZE * SIZE`
pixels are the packed value of `c`, and it is blank exactly when the alpha of
`c` is 0. -/
theorem C7_solid_fill (SIZE : Nat) (h : Heap) (junk : Nat → Nat) (c : QColor)
    (hS : 0 < SIZE) :
    ∃ h1 t1, Tile.ofColor SIZE h junk c = (h1, t1) ∧ t1.isNull = false ∧
      Tile.pixels SIZE h1 t1 = List.replicate (SIZE * SIZE) c.rgba ∧
      (∀ i j, i < SIZE → j < SIZE → Tile.pixel SIZE h1 t1 i j = c.rgba) ∧
      Tile.isBlank SIZE h1 t1 = decide (c.alpha.val = 0) := by
  obtain ⟨r, hr, hrep⟩ := Tile.ofColor_spec SIZE h junk c
  have hd : ((Tile.alloc SIZE h junk).1.write h.next r).data h.next = r :=
    Heap.data_write_self _ _ _ _ (Tile.alloc_blocks_self SIZE h junk)
  have hpix : ∀ i j, i < SIZE → j < SIZE →
      Tile.pixel SIZE ((Tile.alloc SIZE h junk).1.write h.next r) { _data := some h.next } i j
        = c.rgba := by
    intro i j hi hj
    simp only [Tile.pixel]
    rw [hd, hrep]
    have hk : j * SIZE + i < SIZE * SIZE := by
      have := row_in_block SIZE j (i + 1) hj (by omega)
      omega
    rw [List.getD_eq_getElem _ 0 (by simp; exact hk)]
    simp
  refine ⟨_, _, hr, rfl, ?_, hpix, ?_⟩
  · simp only [Tile.pixels]
    rw [hd, hrep]
  · rw [Bool.eq_iff_iff, Tile.isBlank_iff, decide_eq_true_iff]
    constructor
    · rintro (h1 | h1)
      · simp [Tile.isNull] at h1
      · have h2 := h1 0 0 hS hS
        rw [hpix 0 0 hS hS, QColor.qAlpha_rgba] at h2
        exact h2
    · intro h0
      right
      intro i j hi hj
      rw [hpix i j hi hj, QColor.qAlpha_rgba]
      exact h0

theorem C7_solid_fill_witness :
    ∃ h1 t1, Tile.ofColor 2 Heap.empty (fun _ => 99) opaqueRed = (h1, t1) ∧ t1.isNull = false ∧
      Tile.pixels 2 h1 t1 = List.replicate (2 * 2) opaqueRed.rgba ∧
      (∀ i j, i < 2 → j < 2 → Tile.pixel 2 h1 t1 i j = opaqueRed.rgba) ∧
      Tile.isBlank 2 h1 t1 = decide (opaqueRed.alpha.val = 0) :=
  C7_solid_fill 2 Heap.empty (fun _ => 99) opaqueRed (by decide)

/-! ## Raw output -/

theorem getD_drop (l : List Nat) (n k : Nat) : (l.drop n).getD k 0 = l.getD (n + k) 0 := by
  simp [List.getD, List.getElem?_drop]

theorem Tile.pixels_length (SIZE : Nat) (h : Heap) (t : Tile) (hv : t.valid SIZE h = true) :
    (Tile.pixels SIZE h t).length = SIZE * SIZE := by
  cases hp : t._data with
  | none => simp [Tile.pixels, hp]
  | some p =>
    obtain ⟨td, hb, _, _, hl⟩ := Tile.valid_some SIZE h t p hp hv
    simp only [Tile.pixels, hp]
    rw [Heap.data_of_block _ _ _ hb, hl]

/-- C8. `copyTo` overwrites exactly the first `SIZE * SIZE` words of the
caller's buffer: with zeros for the null tile, with the stored pixels in
their order otherwise; the words after them are kept. (The member is `const`:
it has no heap or handle to return.) -/
theorem C8_copyTo (SIZE : Nat) (h : Heap) (t : Tile) (buf : List Nat)
    (hv : t.valid SIZE h = true) (hbuf : SIZE * SIZE ≤ buf.length) :
    ∃ r, Tile.copyTo SIZE h t buf = some r ∧
      r = Tile.pixels SIZE h t ++ buf.drop (SIZE * SIZE) ∧
      (t.isNull = true → r.take (SIZE * SIZE) = List.replicate (SIZE * SIZE) 0) ∧
      (∀ p, t._data = some p → r.take (SIZE * SIZE) = h.data p) := by
  obtain ⟨r, hr, hl, ha, hb⟩ := Tile.copyTo_spec SIZE h t buf hv hbuf
  have hpl := Tile.pixels_length SIZE h t hv
  have hre : r = Tile.pixels SIZE h t ++ buf.drop (SIZE * SIZE) := by
    apply ext_getD
    · rw [hl, List.length_append, hpl, List.length_drop]
      omega
    · intro k
      by_cases hk : k < SIZE * SIZE
      · rw [ha k hk, List.getD_append _ _ _ _ (by rw [hpl]; exact hk)]
        unfold Tile.pixels
        cases hp : t._data with
        | none =>
          simp only []
          rw [List.getD_eq_getElem _ 0 (by simp; exact hk)]
          simp
        | some p => rfl
      · rw [hb k (by omega), List.getD_append_right _ _ _ _ (by rw [hpl]; omega), hpl,
          getD_drop]
        congr 1
        omega
  have htake : r.take (SIZE * SIZE) = Tile.pixels SIZE h t := by
    rw [hre, List.take_left' hpl]
  refine ⟨r, hr, hre, ?_, ?_⟩
  · intro hn
    rw [htake]
    cases hp : t._data with
    | none => simp [Tile.pixels, hp]
    | some p => simp [Tile.isNull, hp] at hn
  · intro p hp
    rw [htake]
    simp [Tile.pixels, hp]

theorem C8_copyTo_witness :
    ∃ r, Tile.copyTo 2 sampleHeap sampleTile [1, 2, 3, 4, 5, 6] = some r ∧
      r = Tile.pixels 2 sampleHeap sampleTile ++ [1, 2, 3, 4, 5, 6].drop (2 * 2) ∧
      (sampleTile.isNull = true → r.take (2 * 2) = List.replicate (2 * 2) 0) ∧
      (∀ p, sampleTile._data = some p → r.take (2 * 2) = sampleHeap.data p) :=
  C8_copyTo 2 sampleHeap sampleTile [1, 2, 3, 4, 5, 6] (by decide) (by decide)

/-! ## Merging a non-null source -/

theorem Heap.data_congr (h1 h2 : Heap) (p : Nat) (hb : h1.blocks p = h2.blocks p) :
    h1.data p = h2.data p := by
  simp [Heap.data, hb]

/-- C10. `merge` with a non-null source `s`: the call returns, the tile is
non-null afterwards and its pixels are `compositePixels(blend, dest, src,
SIZE*SIZE, opacity)` for `dest` the previous pixels of the tile (zeros when it
was null) and `src` the pixels of `s`; the pixels of `s` are unchanged. The
two handles are distinct holders: a block they share has a count other than 1. -/
theorem C10_merge (SIZE : Nat)
    (compositePixels : Int → List Nat → List Nat → Int → Nat → List Nat)
    (h : Heap) (t : Tile) (junk : Nat → Nat) (s : Tile) (opacity : Nat) (blend : Int)
    (hvt : t.valid SIZE h = true) (hvs : s.valid SIZE h = true) (hsn : s.isNull = false)
    (hsep : ∀ p td, t._data = some p → s._data = some p → h.blocks p = some td → td.ref ≠ 1) :
    ∃ h1 t1, Tile.merge SIZE compositePixels h t junk s opacity blend = some (h1, t1) ∧
      t1.isNull = false ∧
      Tile.pixels SIZE h1 t1 =
        compositePixels blend (Tile.pixels SIZE h t) (Tile.pixels SIZE h s) (SIZE * SIZE)
          opacity ∧
      Tile.pixels SIZE h1 s = Tile.pixels SIZE h s := by
  cases hs : s._data with
  | none => simp [Tile.isNull, hs] at hsn
  | some sp =>
    obtain ⟨sd, hsb, hslt, _, _⟩ := Tile.valid_some SIZE h s sp hs hvs
    cases hp : t._data with
    | none =>
      have hg := Tile.getOrCreateData_null SIZE h t junk hp
      have hm := Tile.merge_eq SIZE compositePixels h t junk s opacity blend _ _ _ sp hs hg
      have hw := Heap.write_blocks_self _ h.next (List.replicate (SIZE * SIZE) 0) _
        (Tile.alloc_blocks_self SIZE h junk)
      have hd1 : ((Tile.alloc SIZE h junk).1.write h.next (List.replicate (SIZE * SIZE) 0)).data
          h.next = List.replicate (SIZE * SIZE) 0 :=
        Heap.data_write_self _ _ _ _ (Tile.alloc_blocks_self SIZE h junk)
      have hd2 : ((Tile.alloc SIZE h junk).1.write h.next (List.replicate (SIZE * SIZE) 0)).data
          sp = h.data sp := by
        rw [Heap.data_write_other _ _ _ _ (by omega : sp ≠ h.next)]
        exact Heap.data_congr _ _ _ (Tile.alloc_blocks_other SIZE h junk sp (by omega))
      refine ⟨_, _, hm, rfl, ?_, ?_⟩
      · simp only [Tile.pixels, hp, hs]
        rw [Heap.data_write_self _ _ _ _ hw, hd1, hd2]
      · simp only [Tile.pixels, hs]
        rw [Heap.data_write_other _ _ _ _ (by omega : sp ≠ h.next), hd2]
    | some p =>
      obtain ⟨td, hb, hlt, href, _⟩ := Tile.valid_some SIZE h t p hp hvt
      by_cases hr : td.ref = 1
      · have hg := Tile.getOrCreateData_sole SIZE h t junk p td hp hb hr
        have hm := Tile.merge_eq SIZE compositePixels h t junk s opacity blend _ _ _ sp hs hg
        have hne : sp ≠ p := by
          intro he
          subst he
          exact hsep sp td hp hs hb hr
        refine ⟨_, _, hm, rfl, ?_, ?_⟩
        · simp only [Tile.pixels, hp, hs]
          rw [Heap.data_write_self _ _ _ _ hb]
        · simp only [Tile.pixels, hs]
          rw [Heap.data_write_other _ _ _ _ hne]
      · have hg := Tile.getOrCreateData_shared SIZE h t junk p td hp hb hlt hr
        have hm := Tile.merge_eq SIZE compositePixels h t junk s opacity blend _ _ _ sp hs hg
        obtain ⟨_, h2, _, h4, h5, _⟩ := QSharedDataPointer.detach_shared h p td hb hlt hr
        have h0 : td.ref - 1 ≠ 0 := by omega
        simp only [ne_eq, h0, not_false_eq_true, if_true] at h5
        have hd1 : (QSharedDataPointer.detach h (some p)).1.data h.next = h.data p := by
          rw [Heap.data_of_block _ _ _ h2, Heap.data_of_block _ _ _ hb]
        have hd2 : (QSharedDataPointer.detach h (some p)).1.data sp = h.data sp := by
          by_cases he : sp = p
          · rw [he, Heap.data_of_block _ _ _ h5, Heap.data_of_block _ _ _ hb]
          · exact Heap.data_congr _ _ _ (h4 sp (by omega) he)
        refine ⟨_, _, hm, rfl, ?_, ?_⟩
        · simp only [Tile.pixels, hp, hs]
          rw [Heap.data_write_self _ _ _ _ h2, hd1, hd2]
        · simp only [Tile.pixels, hs]
          rw [Heap.data_write_other _ _ _ _ (by omega : sp ≠ h.next), hd2]

theorem C10_merge_witness :
    ∃ h1 t1, Tile.merge 2 samplePixels (Tile.copy sampleHeap sampleTile).1 sampleTile
        (fun _ => 7) sampleTile 255 0 = some (h1, t1) ∧
      t1.isNull = false ∧
      Tile.pixels 2 h1 t1 =
        samplePixels 0 (Tile.pixels 2 (Tile.copy sampleHeap sampleTile).1 sampleTile)
          (Tile.pixels 2 (Tile.copy sampleHeap sampleTile).1 sampleTile) (2 * 2) 255 ∧
      Tile.pixels 2 h1 sampleTile =
        Tile.pixels 2 (Tile.copy sampleHeap sampleTile).1 sampleTile :=
  C10_merge 2 samplePixels (Tile.copy sampleHeap sampleTile).1 sampleTile (fun _ => 7)
    sampleTile 255 0 (by decide) (by decide) (by decide)
    (fun p td hp _ hb => by
      have e : sampleTile._data = some 0 := rfl
      rw [e] at hp
      cases hp
      have e2 : (Tile.copy sampleHeap sampleTile).1.blocks 0 =
          some { ref := 2, data := List.replicate 4 opaqueRed.rgba } := rfl
      rw [e2] at hb
      cases hb
      decide)

/-! ## The checks and the storage forced by `composite` -/

/-- `getOrCreateData` always returns, and the handle it leaves is non-null. -/
theorem Tile.getOrCreateData_returns (SIZE : Nat) (h : Heap) (t : Tile) (junk : Nat → Nat) :
    ∃ h1 q, Tile.getOrCreateData SIZE h t junk = some (h1, { _data := some q }, q) := by
  cases hp : t._data with
  | none => exact ⟨_, _, Tile.getOrCreateData_null SIZE h t junk hp⟩
  | some p =>
    cases hb : h.blocks p with
    | none =>
      refine ⟨h, p, ?_⟩
      simp [Tile.getOrCreateData, hp, QSharedDataPointer.detach, hb]
    | some td =>
      by_cases hr : td.ref = 1
      · exact ⟨_, _, Tile.getOrCreateData_sole SIZE h t junk p td hp hb hr⟩
      · refine ⟨(QSharedDataPointer.detach h (some p)).1, h.next, ?_⟩
        have hd : (QSharedDataPointer.detach h (some p)).2 = some h.next := by
          simp [QSharedDataPointer.detach, hb, hr, TileData.copy]
        simp only [Tile.getOrCreateData, hp, hd]

/-- The call `composite` returns exactly when its two assertions hold. -/
theorem Tile.composite_isSome (SIZE : Nat)
    (compositeMask : Int → List Nat → Int → Nat → List Nat → Int → Int → Int → Int → List Nat)
    (h : Heap) (t : Tile) (junk : Nat → Nat) (mode : Int) (values : List Nat) (color : QColor)
    (x y w hh skip : Int) :
    (Tile.composite SIZE compositeMask h t junk mode values color x y w hh skip).isSome = true ↔
      ((x ≥ 0 ∧ x < (SIZE : Int) ∧ y ≥ 0 ∧ y < (SIZE : Int)) ∧
        ((x + w) ≤ (SIZE : Int) ∧ (y + hh) ≤ (SIZE : Int))) := by
  obtain ⟨h1, q, hg⟩ := Tile.getOrCreateData_returns SIZE h t junk
  by_cases ha : (x ≥ 0 ∧ x < (SIZE : Int) ∧ y ≥ 0 ∧ y < (SIZE : Int))
  · by_cases hb : ((x + w) ≤ (SIZE : Int) ∧ (y + hh) ≤ (SIZE : Int))
    · rw [Tile.composite_eq SIZE compositeMask h t junk mode values color x y w hh skip
        _ _ _ ha hb hg]
      simp [ha, hb]
    · have hn : Tile.composite SIZE compositeMask h t junk mode values color x y w hh skip
          = none := by
        simp only [Tile.composite, ha, hb, and_self, not_true_eq_false, not_false_eq_true,
          if_true, if_false]
      rw [hn]
      simp [hb]
  · have hn : Tile.composite SIZE compositeMask h t junk mode values color x y w hh skip
        = none := by
      simp only [Tile.composite, ha, not_false_eq_true, if_true]
    rw [hn]
    simp [ha]

/-- C16 (as the code has it). The assertions at the top of `composite` pass
exactly when `0 <= x < SIZE`, `0 <= y < SIZE`, `x+w <= SIZE` and `y+h <= SIZE`.
They imply the stated preconditions, and they follow from them when the
rectangle is not empty (`w >= 1` and `h >= 1`). -/
theorem C16_composite_checks (SIZE : Nat)
    (compositeMask : Int → List Nat → Int → Nat → List Nat → Int → Int → Int → Int → List Nat)
    (h : Heap) (t : Tile) (junk : Nat → Nat) (mode : Int) (values : List Nat) (color : QColor)
    (x y w hh skip : Int) :
    ((Tile.composite SIZE compositeMask h t junk mode values color x y w hh skip).isSome = true ↔
      (0 ≤ x ∧ x < (SIZE : Int) ∧ 0 ≤ y ∧ y < (SIZE : Int) ∧
        x + w ≤ (SIZE : Int) ∧ y + hh ≤ (SIZE : Int))) ∧
    ((Tile.composite SIZE compositeMask h t junk mode values color x y w hh skip).isSome = true →
      (0 ≤ x ∧ 0 ≤ y ∧ x + w ≤ (SIZE : Int) ∧ y + hh ≤ (SIZE : Int))) ∧
    ((0 ≤ x ∧ 0 ≤ y ∧ x + w ≤ (SIZE : Int) ∧ y + hh ≤ (SIZE : Int)) → 1 ≤ w → 1 ≤ hh →
      (Tile.composite SIZE compositeMask h t junk mode values color x y w hh skip).isSome
        = true) := by
  have key := Tile.composite_isSome SIZE compositeMask h t junk mode values color x y w hh skip
  refine ⟨?_, ?_, ?_⟩
  · rw [key]
    constructor
    · rintro ⟨⟨h1, h2, h3, h4⟩, h5, h6⟩
      exact ⟨h1, h2, h3, h4, h5, h6⟩
    · rintro ⟨h1, h2, h3, h4, h5, h6⟩
      exact ⟨⟨h1, h2, h3, h4⟩, h5, h6⟩
  · intro hs
    obtain ⟨⟨h1, _, h3, _⟩, h5, h6⟩ := key.mp hs
    exact ⟨h1, h3, h5, h6⟩
  · rintro ⟨h1, h2, h3, h4⟩ hw1 hh1
    apply key.mpr
    exact ⟨⟨h1, by omega, h2, by omega⟩, h3, h4⟩

/-- C16 as stated fails: with `SIZE = 2`, the arguments `x = 2`, `y = 0`,
`w = 0`, `h = 0` satisfy `0 <= x`, `0 <= y`, `x+w <= SIZE`, `y+h <= SIZE`, yet the
assertion `x < SIZE` fails and the call does not return. -/
theorem C16_composite_checks_counterexample :
    ((0 : Int) ≤ 2 ∧ (0 : Int) ≤ 0 ∧ (2 : Int) + 0 ≤ ((2 : Nat) : Int) ∧
      (0 : Int) + 0 ≤ ((2 : Nat) : Int)) ∧
    (Tile.composite 2 sampleMask sampleHeap sampleTile (fun _ => 7) 0 [] opaqueRed
      2 0 0 0 0).isSome = false := by
  decide

/-- C12. No call of `composite` returns a null tile, and whenever its
assertions hold (an empty rectangle with `w = 0` or `h = 0` included) the call
does return: the tile is non-null afterwards, whether or not it was null
before. -/
theorem C12_composite_forces_storage (SIZE : Nat)
    (compositeMask : Int → List Nat → Int → Nat → List Nat → Int → Int → Int → Int → List Nat)
    (h : Heap) (t : Tile) (junk : Nat → Nat) (mode : Int) (values : List Nat) (color : QColor)
    (x y w hh skip : Int) :
    (∀ h1 t1, Tile.composite SIZE compositeMask h t junk mode values color x y w hh skip
        = some (h1, t1) → t1.isNull = false) ∧
    ((x ≥ 0 ∧ x < (SIZE : Int) ∧ y ≥ 0 ∧ y < (SIZE : Int)) →
      ((x + w) ≤ (SIZE : Int) ∧ (y + hh) ≤ (SIZE : Int)) →
      ∃ h1 t1, Tile.composite SIZE compositeMask h t junk mode values color x y w hh skip
        = some (h1, t1) ∧ t1.isNull = false) := by
  obtain ⟨h1, q, hg⟩ := Tile.getOrCreateData_returns SIZE h t junk
  refine ⟨?_, ?_⟩
  · intro h2 t2 h2e
    have hs : (Tile.composite SIZE compositeMask h t junk mode values color x y w hh skip).isSome
        = true := by rw [h2e]; rfl
    obtain ⟨ha, hb⟩ := (Tile.composite_isSome SIZE compositeMask h t junk mode values color
      x y w hh skip).mp hs
    rw [Tile.composite_eq SIZE compositeMask h t junk mode values color x y w hh skip
      _ _ _ ha hb hg] at h2e
    cases h2e
    rfl
  · intro ha hb
    exact ⟨_, _, Tile.composite_eq SIZE compositeMask h t junk mode values color x y w hh skip
      _ _ _ ha hb hg, rfl⟩

theorem C12_composite_forces_storage_witness :
    ∃ h1 t1, Tile.composite 2 sampleMask Heap.empty Tile.null (fun _ => 7) 0 [] opaqueRed
        0 1 0 0 0 = some (h1, t1) ∧ t1.isNull = false :=
  (C12_composite_forces_storage 2 sampleMask Heap.empty Tile.null (fun _ => 7) 0 [] opaqueRed
    0 1 0 0 0).2 (by decide) (by decide)

/-! ## `getOrCreateData` seen through the read-only members -/

theorem Tile.pixel_eq_pixels (SIZE : Nat) (h : Heap) (t : Tile) (i j : Nat)
    (hi : i < SIZE) (hj : j < SIZE) :
    Tile.pixel SIZE h t i j = (Tile.pixels SIZE h t).getD (j * SIZE + i) 0 := by
  unfold Tile.pixel Tile.pixels
  cases t._data with
  | none =>
    have hk : j * SIZE + i < SIZE * SIZE := by
      have := row_in_block SIZE j (i + 1) hj (by omega)
      omega
    simp only []
    rw [List.getD_eq_getElem _ 0 (by simp; exact hk)]
    simp
  | some p => rfl

/-- The block `getOrCreateData` returns is valid and stores the pixels the tile
stood for before the call. -/
theorem Tile.getOrCreateData_pixels (SIZE : Nat) (h : Heap) (t : Tile) (junk : Nat → Nat)
    (hv : t.valid SIZE h = true) :
    ∃ h1 q, Tile.getOrCreateData SIZE h t junk = some (h1, { _data := some q }, q) ∧
      Tile.valid SIZE h1 { _data := some q } = true ∧
      Tile.pixels SIZE h1 { _data := some q } = Tile.pixels SIZE h t := by
  cases hp : t._data with
  | none =>
    have hw := Heap.write_blocks_self _ h.next (List.replicate (SIZE * SIZE) 0) _
      (Tile.alloc_blocks_self SIZE h junk)
    refine ⟨_, _, Tile.getOrCreateData_null SIZE h t junk hp, ?_, ?_⟩
    · simp [Tile.valid, hw, Heap.write_next, Tile.alloc_next]
    · simp only [Tile.pixels, hp]
      rw [Heap.data_of_block _ _ _ hw]
  | some p =>
    obtain ⟨td, hb, hlt, href, hl⟩ := Tile.valid_some SIZE h t p hp hv
    by_cases hr : td.ref = 1
    · refine ⟨_, _, Tile.getOrCreateData_sole SIZE h t junk p td hp hb hr, ?_, ?_⟩
      · simp [Tile.valid, hb, hlt, href, hl]
      · simp only [Tile.pixels, hp]
    · obtain ⟨_, h2, h3, _, _, _⟩ := QSharedDataPointer.detach_shared h p td hb hlt hr
      refine ⟨_, _, Tile.getOrCreateData_shared SIZE h t junk p td hp hb hlt hr, ?_, ?_⟩
      · simp [Tile.valid, h2, h3, hl]
      · simp only [Tile.pixels, hp]
        rw [Heap.data_of_block _ _ _ h2, Heap.data_of_block _ _ _ hb]

theorem Tile.copyTo_short (SIZE : Nat) (h : Heap) (t : Tile) (buf : List Nat)
    (hbuf : buf.length < SIZE * SIZE) : Tile.copyTo SIZE h t buf = none := by
  have e1 : ((SIZE : Int) * (SIZE : Int) * 4) = ((4 * (SIZE * SIZE) : Nat) : Int) := by
    push_cast; ring
  have hlen : ¬ ((0 : Int) + ((4 * (SIZE * SIZE) : Nat) : Int) ≤ 4 * (buf.length : Int)) := by
    omega
  have ht : toSizeT ((SIZE : Int) * (SIZE : Int) * 4) = 4 * (SIZE * SIZE) := by
    rw [e1, toSizeT_nonneg]
  unfold Tile.copyTo
  cases t._data with
  | none =>
    simp only [memset, BYTES]
    apply if_neg
    intro hc
    rw [ht] at hc
    exact hlen hc.2.2.2
  | some p =>
    simp only [memcpy, BYTES]
    apply if_neg
    intro hc
    rw [ht] at hc
    exact hlen hc.2.2.2.2.2.1

/-- Two valid tiles with the same pixels are written into an image alike. -/
theorem Tile.copyToImage_eq_of_pixels (SIZE : Nat) (h1 h2 : Heap) (t1 t2 : Tile) (img : QImage)
    (x y : Nat) (hwf : img.wellFormed) (hx : x < img.width) (hy : y < img.height)
    (hv1 : t1.valid SIZE h1 = true) (hv2 : t2.valid SIZE h2 = true)
    (hpix : ∀ i j, i < SIZE → j < SIZE → Tile.pixel SIZE h1 t1 i j = Tile.pixel SIZE h2 t2 i j) :
    Tile.copyToImage SIZE h1 t1 img x y = Tile.copyToImage SIZE h2 t2 img x y := by
  obtain ⟨s, hs, hws, hlen⟩ := QImage.wellFormed_words img hwf
  obtain ⟨b1, hb1, hl1, ha1, hc1⟩ := Tile.copyToImage_spec SIZE h1 t1 img x y s hs hws hlen hx hy hv1
  obtain ⟨b2, hb2, hl2, ha2, hc2⟩ := Tile.copyToImage_spec SIZE h2 t2 img x y s hs hws hlen hx hy hv2
  have he : b1 = b2 := by
    apply ext_getD b1 b2 (by rw [hl1, hl2])
    intro k
    by_cases hk : ∃ i j, i < min SIZE (img.width - x) ∧ j < min SIZE (img.height - y) ∧
        k = (y + j) * s + (x + i)
    · obtain ⟨i, j, hi, hj, rfl⟩ := hk
      rw [ha1 i j hi hj, ha2 i j hi hj, hpix i j (by omega) (by omega)]
    · have hk2 : ∀ i j, i < min SIZE (img.width - x) → j < min SIZE (img.height - y) →
          k ≠ (y + j) * s + (x + i) := fun i j hi hj heq => hk ⟨i, j, hi, hj, heq⟩
      rw [hc1 k hk2, hc2 k hk2]
  rw [hb1, hb2, he]

/-- Two tiles with the same pixels are blank alike. -/
theorem Tile.isBlank_eq_of_pixels (SIZE : Nat) (h1 h2 : Heap) (t1 t2 : Tile)
    (hpix : ∀ i j, i < SIZE → j < SIZE → Tile.pixel SIZE h1 t1 i j = Tile.pixel SIZE h2 t2 i j) :
    Tile.isBlank SIZE h1 t1 = Tile.isBlank SIZE h2 t2 := by
  have hnull : ∀ (h : Heap) (t : Tile), t.isNull = true →
      ∀ i j, i < SIZE → j < SIZE → qAlpha (Tile.pixel SIZE h t i j) = 0 := by
    intro h t hn i j _ _
    cases hp : t._data with
    | none => simp [Tile.pixel, hp, qAlpha]
    | some p => simp [Tile.isNull, hp] at hn
  rw [Bool.eq_iff_iff, Tile.isBlank_iff, Tile.isBlank_iff]
  constructor
  · rintro (hn | ha)
    · exact Or.inr (fun i j hi hj => by rw [← hpix i j hi hj]; exact hnull h1 t1 hn i j hi hj)
    · exact Or.inr (fun i j hi hj => by rw [← hpix i j hi hj]; exact ha i j hi hj)
  · rintro (hn | ha)
    · exact Or.inr (fun i j hi hj => by rw [hpix i j hi hj]; exact hnull h2 t2 hn i j hi hj)
    · exact Or.inr (fun i j hi hj => by rw [hpix i j hi hj]; exact ha i j hi hj)

/-- C13. `getOrCreateData` is observationally a no-op: it returns, the tile is
non-null (and valid) afterwards, and `copyTo` (on every buffer), `copyToImage`
(at every offset inside a well-formed image) and `isBlank` give what they gave
before the call. A null tile becomes an allocated block of `SIZE * SIZE`
zeros, which is still blank. -/
theorem C13_getOrCreateData_noop (SIZE : Nat) (h : Heap) (t : Tile) (junk : Nat → Nat)
    (hv : t.valid SIZE h = true) :
    ∃ h1 t1 q, Tile.getOrCreateData SIZE h t junk = some (h1, t1, q) ∧
      t1.isNull = false ∧ t1._data = some q ∧ t1.valid SIZE h1 = true ∧
      (∀ buf, Tile.copyTo SIZE h1 t1 buf = Tile.copyTo SIZE h t buf) ∧
      (∀ (img : QImage) (x y : Nat), img.wellFormed → x < img.width → y < img.height →
        Tile.copyToImage SIZE h1 t1 img x y = Tile.copyToImage SIZE h t img x y) ∧
      Tile.isBlank SIZE h1 t1 = Tile.isBlank SIZE h t ∧
      (t.isNull = true →
        h1.data q = List.replicate (SIZE * SIZE) 0 ∧ Tile.isBlank SIZE h1 t1 = true) := by
  obtain ⟨h1, q, hg, hv1, hpx⟩ := Tile.getOrCreateData_pixels SIZE h t junk hv
  have hpix : ∀ i j, i < SIZE → j < SIZE →
      Tile.pixel SIZE h1 { _data := some q } i j = Tile.pixel SIZE h t i j := by
    intro i j hi hj
    rw [Tile.pixel_eq_pixels SIZE h1 _ i j hi hj, Tile.pixel_eq_pixels SIZE h t i j hi hj, hpx]
  have hblank := Tile.isBlank_eq_of_pixels SIZE h1 h { _data := some q } t hpix
  refine ⟨h1, _, q, hg, rfl, rfl, hv1, ?_, ?_, hblank, ?_⟩
  · intro buf
    by_cases hbuf : SIZE * SIZE ≤ buf.length
    · obtain ⟨r, hr1, hr2⟩ := Tile.copyTo_eq_of_pixels SIZE h1 h _ t buf hv1 hv hbuf hpix
      rw [hr1, hr2]
    · rw [Tile.copyTo_short SIZE h1 _ buf (by omega), Tile.copyTo_short SIZE h t buf (by omega)]
  · intro img x y hwf hx hy
    exact Tile.copyToImage_eq_of_pixels SIZE h1 h _ t img x y hwf hx hy hv1 hv hpix
  · intro hn
    refine ⟨?_, ?_⟩
    · cases hp : t._data with
      | none =>
        have := hpx
        simp only [Tile.pixels, hp] at this
        exact this
      | some p => simp [Tile.isNull, hp] at hn
    · rw [hblank]
      simp [Tile.isBlank, hn]

theorem C13_getOrCreateData_noop_witness :
    ∃ h1 t1 q, Tile.getOrCreateData 2 sampleHeap Tile.null (fun _ => 7) = some (h1, t1, q) ∧
      t1.isNull = false ∧ t1._data = some q ∧ t1.valid 2 h1 = true ∧
      (∀ buf, Tile.copyTo 2 h1 t1 buf = Tile.copyTo 2 sampleHeap Tile.null buf) ∧
      (∀ (img : QImage) (x y : Nat), img.wellFormed → x < img.width → y < img.height →
        Tile.copyToImage 2 h1 t1 img x y = Tile.copyToImage 2 sampleHeap Tile.null img x y) ∧
      Tile.isBlank 2 h1 t1 = Tile.isBlank 2 sampleHeap Tile.null ∧
      (Tile.null.isNull = true →
        h1.data q = List.replicate (2 * 2) 0 ∧ Tile.isBlank 2 h1 t1 = true) :=
  C13_getOrCreateData_noop 2 sampleHeap Tile.null (fun _ => 7) (by decide)

/-! ## `copyToImage` at and beyond the edges of the image -/

/-- At or below the bottom edge the row count is not positive and nothing is
written, whatever `x` is. -/
theorem Tile.copyToImage_below (SIZE : Nat) (h : Heap) (t : Tile) (img : QImage) (x y : Int)
    (hy : (img.height : Int) ≤ y) : Tile.copyToImage SIZE h t img x y = some img := by
  have hh : (if (img.height : Int) - y < (SIZE : Int) then (img.height : Int) - y
      else (SIZE : Int)).toNat = 0 := by
    split <;> omega
  unfold Tile.copyToImage
  simp only [hh]
  cases t._data <;> rfl

/-- Exactly at the right edge, rows of zero bytes are copied: nothing is
written. -/
theorem Tile.copyToImage_right_edge (SIZE : Nat) (h : Heap) (t : Tile) (img : QImage)
    (y : Nat) (hwf : img.wellFormed) (hy : y < img.height) (hv : t.valid SIZE h = true) :
    Tile.copyToImage SIZE h t img (img.width : Int) y = some img := by
  obtain ⟨s, hs, hws, hlen⟩ := QImage.wellFormed_words img hwf
  have hw : (4 * (if (img.width : Int) - (img.width : Int) < (SIZE : Int) then
      (img.width : Int) - (img.width : Int) else (SIZE : Int))) = 4 * ((0 : Nat) : Int) := by
    split <;> omega
  have hh : (if (img.height : Int) - (y : Int) < (SIZE : Int) then
      (img.height : Int) - (y : Int) else (SIZE : Int)) =
      ((min SIZE (img.height - y) : Nat) : Int) := by
    split <;> omega
  have e2 : ((y : Int) * ((img.bytesPerLine : Nat) : Int) + (img.width : Int) * 4) =
      4 * ((y * s + img.width : Nat) : Int) := by
    rw [hs]; push_cast; ring
  have e5 : ((img.bytesPerLine : Nat) : Int) = 4 * (s : Int) := by rw [hs]; push_cast; ring
  have e0 : (0 : Int) = 4 * ((0 : Nat) : Int) := by simp
  have hdst : ∀ r, r < min SIZE (img.height - y) →
      y * s + img.width + r * s + 0 ≤ img.bits.length := by
    intro r hr
    rw [hlen]
    have := row_in_image s img.height img.width (y + r) img.width 0 (by omega) (by omega) hws
    rw [Nat.add_mul] at this
    omega
  have hsame : ∀ (res : List Nat), res.length = img.bits.length →
      (∀ i, (∀ r c, r < min SIZE (img.height - y) → c < 0 → i ≠ y * s + img.width + r * s + c) →
        res.getD i 0 = img.bits.getD i 0) → res = img.bits := by
    intro res hl hg
    apply ext_getD res img.bits hl
    intro k
    apply hg
    intro r c _ hc
    omega
  cases hp : t._data with
  | none =>
    obtain ⟨res, hres, hrl, _, hrb⟩ := zeroRows_words 0 s (Nat.zero_le _)
      (min SIZE (img.height - y)) img.bits (y * s + img.width) hdst
    have he := hsame res hrl hrb
    simp only [Tile.copyToImage, hp, hw, hh, Int.toNat_ofNat, e2]
    rw [e5, hres, he]
  | some p =>
    obtain ⟨td, hb, _, _, hl⟩ := Tile.valid_some SIZE h t p hp hv
    have hdl : (h.data p).length = SIZE * SIZE := by rw [Heap.data_of_block _ _ _ hb, hl]
    obtain ⟨res, hres, hrl, _, hrb⟩ := copyRows_words (h.data p) 0 s SIZE (Nat.zero_le _)
      (min SIZE (img.height - y)) img.bits (y * s + img.width) 0
      (by
        intro r hr
        refine ⟨hdst r hr, ?_⟩
        rw [hdl]
        have := row_in_block SIZE r 0 (by omega) (Nat.zero_le _)
        omega)
    have he := hsame res hrl hrb
    simp only [Tile.copyToImage, hp, hw, hh, Int.toNat_ofNat, e2]
    rw [e5, e0, hres, he]

/-- C17 fails beyond the right edge. With `SIZE = 2` and the 3 x 2 image,
`copyToImage(image, 4, 0)` computes `w = 4 * (3 - 4) = -4` and `h = 2`; the
byte count `-4` reaches `memcpy` (`memset` for the null tile) as
`2^64 - 4`, and the copy, which starts at byte 16 of a buffer of 24 bytes,
leaves the buffer. -/
theorem C17_copyToImage_overrun :
    toSizeT (4 * (((sampleImage.width : Nat) : Int) - 4)) = 2 ^ 64 - 4 ∧
    4 * sampleImage.bits.length = 24 ∧
    (Tile.copyToImage 2 sampleHeap sampleTile sampleImage 4 0).isNone = true ∧
    (Tile.copyToImage 2 sampleHeap Tile.null sampleImage 4 0).isNone = true := by
  decide

/-! ## The accesses of the image constructor -/

/-- The row loop is the sequence of its `memcpy` calls. -/
theorem copyRows_eq_calls (src : List Nat) (n dstep sstep : Int) :
    ∀ (k : Nat) (dst : List Nat) (d s : Int),
      copyRows src n dstep sstep k dst d s =
        (copyRowsCalls n dstep sstep k d s).foldlM
          (fun acc c => memcpy acc c.1 src c.2.1 c.2.2) dst := by
  intro k
  induction k with
  | zero =>
    intro dst d s
    rfl
  | succ k ih =>
    intro dst d s
    simp only [copyRows, copyRowsCalls, List.foldlM_cons]
    cases hm : memcpy dst d src s n with
    | none => rfl
    | some dst1 => exact ih dst1 (d + dstep) (s + sstep)

theorem mem_copyRowsCalls (n dstep sstep : Int) :
    ∀ (k : Nat) (d s : Int) (c : Int × Int × Int),
      c ∈ copyRowsCalls n dstep sstep k d s →
        ∃ r : Nat, r < k ∧ c = (d + r * dstep, s + r * sstep, n) := by
  intro k
  induction k with
  | zero =>
    intro d s c hc
    simp [copyRowsCalls] at hc
  | succ k ih =>
    intro d s c hc
    simp only [copyRowsCalls, List.mem_cons] at hc
    rcases hc with hc | hc
    · exact ⟨0, Nat.succ_pos k, by rw [hc]; simp⟩
    · obtain ⟨r, hr, he⟩ := ih _ _ c hc
      refine ⟨r + 1, Nat.succ_lt_succ hr, ?_⟩
      rw [he]
      push_cast
      congr 1
      · ring
      · congr 1
        ring

/-- C18. Under the asserted preconditions (and `SIZE >= 1`) the image
constructor computes `w = min(SIZE, width - xoff)` and
`h = min(SIZE, height - yoff)`, both between 1 and `SIZE`. After the `memset`
of its block it performs exactly `h` calls of `memcpy`, none of which leaves a
buffer: call `r` reads the `4 * w` bytes of row `yoff + r` that start at column
`xoff`, and writes the `4 * w` bytes at byte `4 * r * SIZE` of the block, inside
its `BYTES` bytes. -/
theorem C18_extraction_in_bounds (SIZE : Nat) (h : Heap) (junk : Nat → Nat) (img : QImage)
    (xoff yoff : Nat) (hS : 0 < SIZE) (hwf : img.wellFormed)
    (hfmt : img.format = QImage.Format.Format_ARGB32)
    (hx : xoff < img.width) (hy : yoff < img.height) :
    (1 ≤ Tile.ofImage_w SIZE img xoff ∧ Tile.ofImage_w SIZE img xoff ≤ SIZE ∧
      1 ≤ Tile.ofImage_h SIZE img yoff ∧ Tile.ofImage_h SIZE img yoff ≤ SIZE) ∧
    (Tile.ofImage_w SIZE img xoff = min (SIZE : Int) ((img.width : Int) - xoff) ∧
      Tile.ofImage_h SIZE img yoff = min (SIZE : Int) ((img.height : Int) - yoff)) ∧
    (∃ r, (copyRowsCalls (Tile.ofImage_w SIZE img xoff * 4) (SIZE * 4) img.bytesPerLine
          (Tile.ofImage_h SIZE img yoff).toNat 0
          ((yoff : Int) * img.bytesPerLine + (xoff : Int) * 4)).foldlM
          (fun acc c => memcpy acc c.1 img.bits c.2.1 c.2.2)
          (List.replicate (SIZE * SIZE) 0) = some r ∧
      Tile.ofImage SIZE h junk img xoff yoff =
        some ((Tile.alloc SIZE h junk).1.write h.next r, { _data := some h.next })) ∧
    (∀ c, c ∈ copyRowsCalls (Tile.ofImage_w SIZE img xoff * 4) (SIZE * 4) img.bytesPerLine
          (Tile.ofImage_h SIZE img yoff).toNat 0
          ((yoff : Int) * img.bytesPerLine + (xoff : Int) * 4) →
      ∃ r : Nat, (r : Int) < Tile.ofImage_h SIZE img yoff ∧
        c = (4 * ((r : Int) * SIZE),
             ((yoff : Int) + r) * img.bytesPerLine + 4 * (xoff : Int),
             4 * Tile.ofImage_w SIZE img xoff) ∧
        yoff + r < img.height ∧
        (xoff : Int) + Tile.ofImage_w SIZE img xoff ≤ img.width ∧
        4 * ((r : Int) * SIZE) + 4 * Tile.ofImage_w SIZE img xoff ≤ BYTES SIZE) := by
  have hw : Tile.ofImage_w SIZE img xoff = ((min SIZE (img.width - xoff) : Nat) : Int) := by
    unfold Tile.ofImage_w
    split <;> omega
  have hh : Tile.ofImage_h SIZE img yoff = ((min SIZE (img.height - yoff) : Nat) : Int) := by
    unfold Tile.ofImage_h
    split <;> omega
  have hx1 : ((xoff : Int) ≥ 0 ∧ (xoff : Int) < (img.width : Int)) := by omega
  have hy1 : ((yoff : Int) ≥ 0 ∧ (yoff : Int) < (img.height : Int)) := by omega
  have hdata : (Tile.alloc SIZE h junk).1.data h.next = (List.range (SIZE * SIZE)).map junk :=
    Heap.data_of_block _ _ _ (Tile.alloc_blocks_self SIZE h junk)
  have hunf : Tile.ofImage SIZE h junk img xoff yoff =
      match copyRows img.bits (Tile.ofImage_w SIZE img xoff * 4) (SIZE * 4) img.bytesPerLine
          (Tile.ofImage_h SIZE img yoff).toNat (List.replicate (SIZE * SIZE) 0) 0
          ((yoff : Int) * img.bytesPerLine + (xoff : Int) * 4) with
      | none => none
      | some r => some ((Tile.alloc SIZE h junk).1.write h.next r, { _data := some h.next }) := by
    unfold Tile.ofImage Tile.ofImage_w Tile.ofImage_h
    simp only [hx1, hy1, hfmt, and_self, not_true_eq_false, if_false, Tile.detach_alloc, hdata,
      zero_block]
  obtain ⟨r0, hr0, _, _⟩ := Tile.ofImage_spec SIZE h junk img xoff yoff hwf hfmt hx hy
  refine ⟨?_, ?_, ?_, ?_⟩
  · rw [hw, hh]
    omega
  · rw [hw, hh]
    omega
  · rw [copyRows_eq_calls] at hunf
    cases hf : (copyRowsCalls (Tile.ofImage_w SIZE img xoff * 4) (SIZE * 4) img.bytesPerLine
          (Tile.ofImage_h SIZE img yoff).toNat 0
          ((yoff : Int) * img.bytesPerLine + (xoff : Int) * 4)).foldlM
          (fun acc c => memcpy acc c.1 img.bits c.2.1 c.2.2)
          (List.replicate (SIZE * SIZE) 0) with
    | none =>
      rw [hf, hr0] at hunf
      cases hunf
    | some r =>
      rw [hf] at hunf
      exact ⟨r, rfl, hunf⟩
  · intro c hc
    obtain ⟨r, hr, he⟩ := mem_copyRowsCalls _ _ _ _ _ _ c hc
    rw [hh, Int.toNat_ofNat] at hr
    refine ⟨r, by rw [hh]; omega, ?_, by omega, by rw [hw]; omega, ?_⟩
    · rw [he]
      congr 1
      · ring
      · congr 1
        · ring
        · ring
    · rw [hw]
      unfold BYTES
      have h1 := row_in_block SIZE r (min SIZE (img.width - xoff)) (by omega)
        (Nat.min_le_left _ _)
      have h2 : (r : Int) * (SIZE : Int) + ((min SIZE (img.width - xoff) : Nat) : Int) ≤
          (SIZE : Int) * (SIZE : Int) := by
        have h3 := Int.ofNat_le.mpr h1
        rw [Nat.cast_add, Nat.cast_mul, Nat.cast_mul] at h3
        exact h3
      linarith

theorem C18_extraction_in_bounds_witness :
    (1 ≤ Tile.ofImage_w 2 sampleImage ((2 : Nat) : Int) ∧
      Tile.ofImage_w 2 sampleImage ((2 : Nat) : Int) ≤ ((2 : Nat) : Int) ∧
      1 ≤ Tile.ofImage_h 2 sampleImage ((1 : Nat) : Int) ∧
      Tile.ofImage_h 2 sampleImage ((1 : Nat) : Int) ≤ ((2 : Nat) : Int)) ∧
    (Tile.ofImage_w 2 sampleImage ((2 : Nat) : Int) =
        min (((2 : Nat) : Int)) ((sampleImage.width : Int) - ((2 : Nat) : Int)) ∧
      Tile.ofImage_h 2 sampleImage ((1 : Nat) : Int) =
        min (((2 : Nat) : Int)) ((sampleImage.height : Int) - ((1 : Nat) : Int))) :=
  ⟨(C18_extraction_in_bounds 2 Heap.empty (fun _ => 99) sampleImage 2 1 (by decide)
      ⟨by decide, by decide, by decide⟩ rfl (by decide) (by decide)).1,
    (C18_extraction_in_bounds 2 Heap.empty (fun _ => 99) sampleImage 2 1 (by decide)
      ⟨by decide, by decide, by decide⟩ rfl (by decide) (by decide)).2.1⟩

/-! ## The rectangle `composite` hands to the mask primitive -/

theorem mem_maskRowWalk :
    ∀ (n : Nat) (d m : Int) (a : Int × Int),
      a ∈ maskRowWalk n d m ↔ ∃ c : Nat, c < n ∧ a = (d + c, m + c) := by
  intro n
  induction n with
  | zero =>
    intro d m a
    simp [maskRowWalk]
  | succ n ih =>
    intro d m a
    simp only [maskRowWalk, List.mem_cons, ih]
    constructor
    · rintro (ha | ⟨c, hc, ha⟩)
      · exact ⟨0, Nat.succ_pos n, by rw [ha]; simp⟩
      · refine ⟨c + 1, Nat.succ_lt_succ hc, ?_⟩
        rw [ha]
        push_cast
        congr 1 <;> ring
    · rintro ⟨c, hc, ha⟩
      cases c with
      | zero =>
        left
        rw [ha]
        simp
      | succ c =>
        right
        refine ⟨c, Nat.lt_of_succ_lt_succ hc, ?_⟩
        rw [ha]
        push_cast
        congr 1 <;> ring

theorem mem_maskWalk (w : Nat) (maskskip destskip : Int) :
    ∀ (k : Nat) (d m : Int) (a : Int × Int),
      a ∈ maskWalk w maskskip destskip k d m ↔
        ∃ r c : Nat, r < k ∧ c < w ∧
          a = (d + r * ((w : Int) + destskip) + c, m + r * ((w : Int) + maskskip) + c) := by
  intro k
  induction k with
  | zero =>
    intro d m a
    simp [maskWalk]
  | succ k ih =>
    intro d m a
    simp only [maskWalk, List.mem_append, mem_maskRowWalk, ih]
    constructor
    · rintro (⟨c, hc, ha⟩ | ⟨r, c, hr, hc, ha⟩)
      · exact ⟨0, c, Nat.succ_pos k, hc, by rw [ha]; simp⟩
      · refine ⟨r + 1, c, Nat.succ_lt_succ hr, hc, ?_⟩
        rw [ha]
        push_cast
        congr 1 <;> ring
    · rintro ⟨r, c, hr, hc, ha⟩
      cases r with
      | zero =>
        left
        exact ⟨c, hc, by rw [ha]; simp⟩
      | succ r =>
        right
        refine ⟨r, c, Nat.lt_of_succ_lt_succ hr, hc, ?_⟩
        rw [ha]
        push_cast
        congr 1 <;> ring

/-- The words `composite` hands to the primitive are those of the rectangle. -/
theorem compositeMaskAddresses_composite (SIZE x y w hh : Nat) (skip : Int) (d : Int) :
    d ∈ compositeMaskAddresses (4 * ((y : Int) * SIZE + x)) w hh skip ((SIZE : Int) - w) ↔
      ∃ i j : Nat, x ≤ i ∧ i < x + w ∧ y ≤ j ∧ j < y + hh ∧ d = ((j * SIZE + i : Nat) : Int) := by
  have hs : (4 * ((y : Int) * SIZE + x)) / 4 = (y : Int) * SIZE + x :=
    Int.mul_ediv_cancel_left _ (by decide)
  unfold compositeMaskAddresses
  rw [hs, Int.toNat_ofNat, Int.toNat_ofNat]
  simp only [List.mem_map, mem_maskWalk]
  constructor
  · rintro ⟨a, ⟨r, c, hr, hc, ha⟩, hd⟩
    refine ⟨x + c, y + r, by omega, by omega, by omega, by omega, ?_⟩
    rw [← hd, ha]
    push_cast
    ring
  · rintro ⟨i, j, h1, h2, h3, h4, hd⟩
    refine ⟨_, ⟨j - y, i - x, by omega, by omega, rfl⟩, ?_⟩
    rw [hd]
    have e1 : ((j - y : Nat) : Int) = (j : Int) - y := by omega
    have e2 : ((i - x : Nat) : Int) = (i : Int) - x := by omega
    simp only [e1, e2]
    push_cast
    ring

/-- The primitive keeps the length of the pixel array and every word that is
not on its walk. -/
theorem compositeMask_frame (blendPixel : Int → Nat → Nat → Nat → Nat) (mode : Int)
    (color : Nat) (mask : List Nat) :
    ∀ (L : List (Int × Int)) (dest : List Nat),
      (L.foldl (fun acc c =>
          if 0 ≤ c.1 then
            acc.set c.1.toNat
              (blendPixel mode (acc.getD c.1.toNat 0) color (mask.getD c.2.toNat 0))
          else acc) dest).length = dest.length ∧
      ∀ i : Nat, (i : Int) ∉ L.map Prod.fst →
        (L.foldl (fun acc c =>
          if 0 ≤ c.1 then
            acc.set c.1.toNat
              (blendPixel mode (acc.getD c.1.toNat 0) color (mask.getD c.2.toNat 0))
          else acc) dest).getD i 0 = dest.getD i 0 := by
  intro L
  induction L with
  | nil =>
    intro dest
    exact ⟨rfl, fun i _ => rfl⟩
  | cons a L ih =>
    intro dest
    simp only [List.foldl_cons, List.map_cons, List.mem_cons, not_or]
    by_cases ha : 0 ≤ a.1
    · simp only [ha, if_true]
      obtain ⟨hl, hg⟩ := ih (dest.set a.1.toNat
        (blendPixel mode (dest.getD a.1.toNat 0) color (mask.getD a.2.toNat 0)))
      refine ⟨by rw [hl, List.length_set], ?_⟩
      rintro i ⟨hne, hni⟩
      rw [hg i hni, getD_set]
      have h1 : ¬ (i = a.1.toNat ∧ a.1.toNat < dest.length) := by
        intro hc
        apply hne
        omega
      rw [if_neg h1]
    · simp only [ha, if_false]
      obtain ⟨hl, hg⟩ := ih dest
      exact ⟨hl, fun i hi => hg i hi.2⟩

/-- C11. `composite` touches only its sub-rectangle. For `x, y, w, h >= 0` with
`x+w <= SIZE` and `y+h <= SIZE`, the destination it hands to `compositeMask`
(start `y*SIZE + x`, `w` pixels a row, `h` rows, `SIZE - w` pixels skipped after
each row) addresses exactly the words `j*SIZE + i` with `x <= i < x+w` and
`y <= j < y+h`, all of them below `SIZE*SIZE`; whenever the call returns, every
tile pixel outside that rectangle has its previous value (0 for a tile that
was null); and the call does return when `x < SIZE` and `y < SIZE`. -/
theorem C11_composite_rectangle (SIZE : Nat) (blendPixel : Int → Nat → Nat → Nat → Nat)
    (h : Heap) (t : Tile) (junk : Nat → Nat) (mode : Int) (values : List Nat) (color : QColor)
    (x y w hh : Nat) (skip : Int) (hxw : x + w ≤ SIZE) (hyh : y + hh ≤ SIZE)
    (hv : t.valid SIZE h = true) :
    (∀ d : Int,
      d ∈ compositeMaskAddresses (4 * ((y : Int) * SIZE + x)) w hh skip ((SIZE : Int) - w) ↔
        ∃ i j : Nat, x ≤ i ∧ i < x + w ∧ y ≤ j ∧ j < y + hh ∧
          d = ((j * SIZE + i : Nat) : Int)) ∧
    (∀ d : Int,
      d ∈ compositeMaskAddresses (4 * ((y : Int) * SIZE + x)) w hh skip ((SIZE : Int) - w) →
        0 ≤ d ∧ d < ((SIZE * SIZE : Nat) : Int)) ∧
    (∀ h1 t1, Tile.composite SIZE (compositeMask blendPixel) h t junk mode values color
        x y w hh skip = some (h1, t1) →
      ∀ i j, i < SIZE → j < SIZE → ¬ (x ≤ i ∧ i < x + w ∧ y ≤ j ∧ j < y + hh) →
        Tile.pixel SIZE h1 t1 i j = Tile.pixel SIZE h t i j) ∧
    (x < SIZE → y < SIZE →
      ∃ h1 t1, Tile.composite SIZE (compositeMask blendPixel) h t junk mode values color
        x y w hh skip = some (h1, t1)) := by
  obtain ⟨h0, q, hg, hv0, hpx⟩ := Tile.getOrCreateData_pixels SIZE h t junk hv
  obtain ⟨td0, hb0, _, _, _⟩ := Tile.valid_some SIZE h0 { _data := some q } q rfl hv0
  have hb : ((x : Int) + w) ≤ (SIZE : Int) ∧ ((y : Int) + hh) ≤ (SIZE : Int) := by omega
  refine ⟨compositeMaskAddresses_composite SIZE x y w hh skip, ?_, ?_, ?_⟩
  · intro d hd
    obtain ⟨i, j, h1, h2, h3, h4, he⟩ :=
      (compositeMaskAddresses_composite SIZE x y w hh skip d).mp hd
    have hk := row_in_block SIZE j (i + 1) (by omega) (by omega)
    rw [he]
    omega
  · intro h1 t1 hc i j hi hj hout
    have hs : (Tile.composite SIZE (compositeMask blendPixel) h t junk mode values color
        x y w hh skip).isSome = true := by rw [hc]; rfl
    obtain ⟨ha, _⟩ := (Tile.composite_isSome SIZE (compositeMask blendPixel) h t junk mode
      values color x y w hh skip).mp hs
    rw [Tile.composite_eq SIZE (compositeMask blendPixel) h t junk mode values color
      x y w hh skip _ _ _ ha hb hg] at hc
    cases hc
    have hnot : ((j * SIZE + i : Nat) : Int) ∉
        compositeMaskAddresses (4 * ((y : Int) * SIZE + x)) w hh skip ((SIZE : Int) - w) := by
      intro hmem
      obtain ⟨i2, j2, h1, h2, h3, h4, he⟩ :=
        (compositeMaskAddresses_composite SIZE x y w hh skip _).mp hmem
      have he2 : j * SIZE + i = j2 * SIZE + i2 := by exact_mod_cast he
      have := rowcol_unique SIZE j i j2 i2 hi (by omega) he2
      omega
    have hfr := (compositeMask_frame blendPixel mode color.rgba values
      (maskWalk ((w : Int)).toNat skip ((SIZE : Int) - w) ((hh : Int)).toNat
        ((4 * ((y : Int) * SIZE + x)) / 4) 0) (h0.data q)).2 (j * SIZE + i) hnot
    have hp2 : Tile.pixel SIZE h t i j = (h0.data q).getD (j * SIZE + i) 0 := by
      rw [Tile.pixel_eq_pixels SIZE h t i j hi hj, ← hpx]
      rfl
    rw [hp2]
    simp only [Tile.pixel]
    rw [Heap.data_write_self _ _ _ _ hb0]
    exact hfr
  · intro hx hy
    have ha : ((x : Int) ≥ 0 ∧ (x : Int) < (SIZE : Int) ∧ (y : Int) ≥ 0 ∧
        (y : Int) < (SIZE : Int)) := by omega
    exact ⟨_, _, Tile.composite_eq SIZE (compositeMask blendPixel) h t junk mode values color
      x y w hh skip _ _ _ ha hb hg⟩

theorem C11_composite_rectangle_witness :
    ∃ h1 t1, Tile.composite 2 (compositeMask sampleBlend) sampleHeap sampleTile (fun _ => 7) 0
        [200] opaqueRed ((1 : Nat) : Int) ((0 : Nat) : Int) ((1 : Nat) : Int) ((1 : Nat) : Int) 0
        = some (h1, t1) :=
  (C11_composite_rectangle 2 sampleBlend sampleHeap sampleTile (fun _ => 7) 0 [200] opaqueRed
    1 0 1 1 0 (by decide) (by decide) (by decide)).2.2.2 (by decide) (by decide)

/-! ## The checkerboard -/

theorem store_eq (buf : List Nat) (q v : Nat) (hq : q < buf.length) :
    store buf q v = some (buf.set q v) := by
  simp [store, hq]

/-- One pass of the inner loop of `fillChecker` over four disjoint runs of `n`
words. -/
theorem Tile.fillCheckerRow_spec (d l : Nat) :
    ∀ (n : Nat) (data : List Nat) (q1 q2 q3 q4 : Nat),
      q1 + n ≤ q2 → q2 + n ≤ q3 → q3 + n ≤ q4 → q4 + n ≤ data.length →
      ∃ r, Tile.fillCheckerRow d l n data q1 q2 q3 q4 = some r ∧ r.length = data.length ∧
        ∀ i, r.getD i 0 =
          if q1 ≤ i ∧ i < q1 + n then d
          else if q2 ≤ i ∧ i < q2 + n then l
          else if q3 ≤ i ∧ i < q3 + n then l
          else if q4 ≤ i ∧ i < q4 + n then d
          else data.getD i 0 := by
  intro n
  induction n with
  | zero =>
    intro data q1 q2 q3 q4 _ _ _ _
    refine ⟨data, rfl, rfl, ?_⟩
    intro i
    have h1 : ¬ (q1 ≤ i ∧ i < q1 + 0) := by omega
    have h2 : ¬ (q2 ≤ i ∧ i < q2 + 0) := by omega
    have h3 : ¬ (q3 ≤ i ∧ i < q3 + 0) := by omega
    have h4 : ¬ (q4 ≤ i ∧ i < q4 + 0) := by omega
    rw [if_neg h1, if_neg h2, if_neg h3, if_neg h4]
  | succ n ih =>
    intro data q1 q2 q3 q4 h12 h23 h34 h4l
    have s1 := store_eq data q1 d (by omega)
    have s2 := store_eq (data.set q1 d) q2 l (by rw [List.length_set]; omega)
    have s3 := store_eq ((data.set q1 d).set q2 l) q3 l (by
      rw [List.length_set, List.length_set]; omega)
    have s4 := store_eq (((data.set q1 d).set q2 l).set q3 l) q4 d (by
      rw [List.length_set, List.length_set, List.length_set]; omega)
    have hl4 : ((((data.set q1 d).set q2 l).set q3 l).set q4 d).length = data.length := by
      simp only [List.length_set]
    obtain ⟨r, hr, hrl, hg⟩ := ih ((((data.set q1 d).set q2 l).set q3 l).set q4 d)
      (q1 + 1) (q2 + 1) (q3 + 1) (q4 + 1) (by omega) (by omega) (by omega)
      (by rw [hl4]; omega)
    refine ⟨r, ?_, by rw [hrl, hl4], ?_⟩
    · simp only [Tile.fillCheckerRow, s1, s2, s3, s4]
      exact hr
    · intro i
      rw [hg i, getD_set, getD_set, getD_set, getD_set]
      simp only [List.length_set]
      split_ifs <;> omega

theorem rows_apart (S a b : Nat) (hab : a < b) : a * S + S ≤ b * S := by
  have h1 : (a + 1) * S ≤ b * S := Nat.mul_le_mul_right S hab
  rw [Nat.succ_mul] at h1
  exact h1

/-- The outer loop of `fillChecker` from row `y0` on, for `S = 2 * H`. -/
theorem Tile.fillCheckerRows_spec (H d l S : Nat) (hS : S = H + H) :
    ∀ (k y0 : Nat) (data : List Nat), y0 + k = H → S * S ≤ data.length →
      ∃ r, Tile.fillCheckerRows H d l k data (y0 * S) (y0 * S + H) ((H + y0) * S)
            ((H + y0) * S + H) = some r ∧
        r.length = data.length ∧
        (∀ x y, x < S → y < S →
          r.getD (y * S + x) 0 =
            if (y0 ≤ y ∧ y < H) ∨ H + y0 ≤ y then (if (x < H ↔ y < H) then d else l)
            else data.getD (y * S + x) 0) ∧
        (∀ i, S * S ≤ i → r.getD i 0 = data.getD i 0) := by
  intro k
  induction k with
  | zero =>
    intro y0 data hy _
    refine ⟨data, rfl, rfl, ?_, fun i _ => rfl⟩
    intro x y hx hyS
    have h1 : ¬ ((y0 ≤ y ∧ y < H) ∨ H + y0 ≤ y) := by omega
    rw [if_neg h1]
  | succ k ih =>
    intro y0 data hy hlen
    have f1 : y0 * S + S ≤ (H + y0) * S := rows_apart S y0 (H + y0) (by omega)
    have f2 : (H + y0) * S + S ≤ (H + H) * S := rows_apart S (H + y0) (H + H) (by omega)
    have f3 : (H + H) * S = S * S := by rw [← hS]
    obtain ⟨a, ha, hal, hag⟩ := Tile.fillCheckerRow_spec d l H data (y0 * S) (y0 * S + H)
      ((H + y0) * S) ((H + y0) * S + H) (by omega) (by omega) (by omega) (by omega)
    have e1 : y0 * S + H + H = (y0 + 1) * S := by rw [Nat.succ_mul]; omega
    have e3 : (H + y0) * S + H + H = (H + (y0 + 1)) * S := by
      rw [← Nat.add_assoc, Nat.succ_mul]; omega
    obtain ⟨r, hr, hrl, hrg, hrb⟩ := ih (y0 + 1) a (by omega) (by rw [hal]; exact hlen)
    refine ⟨r, ?_, by rw [hrl, hal], ?_, ?_⟩
    · simp only [Tile.fillCheckerRows, ha]
      rw [e1, e3]
      exact hr
    · intro x y hx hyS
      rw [hrg x y hx hyS, hag]
      have hA : y < y0 → y * S + S ≤ y0 * S := rows_apart S y y0
      have hB : y0 < y → y0 * S + S ≤ y * S := rows_apart S y0 y
      have hC : y < H + y0 → y * S + S ≤ (H + y0) * S := rows_apart S y (H + y0)
      have hD : H + y0 < y → (H + y0) * S + S ≤ y * S := rows_apart S (H + y0) y
      have hE : y = y0 → y * S = y0 * S := fun e => by rw [e]
      have hF : y = H + y0 → y * S = (H + y0) * S := fun e => by rw [e]
      rcases Nat.lt_trichotomy y y0 with c1 | c1 | c1
      · have := hA c1
        have := hC (by omega)
        split_ifs <;> omega
      · have := hE c1
        have := hC (by omega)
        split_ifs <;> omega
      · have := hB c1
        rcases Nat.lt_trichotomy y (H + y0) with c2 | c2 | c2
        · have := hC c2
          split_ifs <;> omega
        · have := hF c2
          split_ifs <;> omega
        · have := hD c2
          split_ifs <;> omega
    · intro i hi
      rw [hrb i hi, hag]
      have h1 : ¬ (y0 * S ≤ i ∧ i < y0 * S + H) := by omega
      have h2 : ¬ (y0 * S + H ≤ i ∧ i < y0 * S + H + H) := by omega
      have h3 : ¬ ((H + y0) * S ≤ i ∧ i < (H + y0) * S + H) := by omega
      have h4 : ¬ ((H + y0) * S + H ≤ i ∧ i < (H + y0) * S + H + H) := by omega
      rw [if_neg h1, if_neg h2, if_neg h3, if_neg h4]

/-- C14. `fillChecker`, for even `SIZE` and a buffer of at least `SIZE * SIZE`
words: the call returns (no store falls outside the buffer), every entry
`data[y*SIZE + x]` with `x, y < SIZE` is written and holds the packed dark
colour when `(x < HALF) == (y < HALF)` and the packed light colour otherwise,
and the words after the first `SIZE * SIZE` are untouched. -/
theorem C14_fillChecker (SIZE : Nat) (data : List Nat) (dark light : QColor)
    (heven : SIZE % 2 = 0) (hlen : SIZE * SIZE ≤ data.length) :
    ∃ r, Tile.fillChecker SIZE data dark light = some r ∧ r.length = data.length ∧
      (∀ x y, x < SIZE → y < SIZE →
        r.getD (y * SIZE + x) 0 =
          if (x < SIZE / 2 ↔ y < SIZE / 2) then dark.rgba else light.rgba) ∧
      (∀ i, SIZE * SIZE ≤ i → r.getD i 0 = data.getD i 0) := by
  have hS : SIZE = SIZE / 2 + SIZE / 2 := by omega
  obtain ⟨r, hr, hrl, hrg, hrb⟩ := Tile.fillCheckerRows_spec (SIZE / 2) dark.rgba light.rgba
    SIZE hS (SIZE / 2) 0 data (by omega) hlen
  have e1 : (SIZE / 2 + 0) * SIZE = SIZE * (SIZE / 2) := by
    rw [Nat.add_zero, Nat.mul_comm]
  rw [Nat.zero_mul, Nat.zero_add, e1] at hr
  refine ⟨r, ?_, hrl, ?_, hrb⟩
  · simp only [Tile.fillChecker]
    exact hr
  · intro x y hx hy
    rw [hrg x y hx hy]
    have h1 : (0 ≤ y ∧ y < SIZE / 2) ∨ SIZE / 2 + 0 ≤ y := by omega
    rw [if_pos h1]

theorem C14_fillChecker_witness :
    ∃ r, Tile.fillChecker 4 (List.replicate 17 9) opaqueRed opaqueWhite = some r ∧
      r.length = (List.replicate 17 9).length ∧
      (∀ x y, x < 4 → y < 4 →
        r.getD (y * 4 + x) 0 =
          if (x < 4 / 2 ↔ y < 4 / 2) then opaqueRed.rgba else opaqueWhite.rgba) ∧
      (∀ i, 4 * 4 ≤ i → r.getD i 0 = (List.replicate 17 9).getD i 0) :=
  C14_fillChecker 4 (List.replicate 17 9) opaqueRed opaqueWhite (by decide) (by decide)

/-! ## Counting live blocks -/

theorem countP_range_congr (f g : Nat → Bool) (n : Nat) (hfg : ∀ q, q < n → f q = g q) :
    (List.range n).countP f = (List.range n).countP g := by
  apply List.countP_congr
  intro q hq
  rw [hfg q (List.mem_range.mp hq)]

theorem countP_range_clear (f g : Nat → Bool) (p : Nat) (hfg : ∀ q, q ≠ p → f q = g q)
    (hf : f p = true) (hg : g p = false) :
    ∀ n, (List.range n).countP f = (List.range n).countP g + (if p < n then 1 else 0) := by
  intro n
  induction n with
  | zero => simp
  | succ n ih =>
    rw [List.range_succ, List.countP_append, List.countP_append, ih, List.countP_singleton,
      List.countP_singleton]
    by_cases hn : n = p
    · subst hn
      rw [hf, hg]
      simp
    · rw [hfg n hn]
      have h1 : (p < n + 1) = (p < n) := by
        apply propext
        constructor <;> intro h <;> omega
      simp only [h1]
      omega

/-- A heap with the same live addresses, the same next address and the same
counter is counted when the original is. -/
theorem Heap.counted_of_shape (h h1 : Heap) (hc : h.counted) (hn : h1.next = h.next)
    (hcount : h1.count = h.count)
    (hs : ∀ q, (h1.blocks q).isSome = (h.blocks q).isSome) : h1.counted := by
  obtain ⟨c1, c2⟩ := hc
  refine ⟨?_, ?_⟩
  · rw [hcount, c1]
    unfold Heap.live
    rw [hn]
    congr 1
    exact (countP_range_congr _ _ _ (fun q _ => hs q)).symm
  · intro q hq
    have h2 := c2 q (by omega)
    have h3 := hs q
    rw [h2] at h3
    cases hb : h1.blocks q with
    | none => rfl
    | some td => rw [hb] at h3; simp at h3

/-- Allocating at the next address keeps the heap counted. -/
theorem Heap.counted_of_alloc (h h1 : Heap) (hc : h.counted) (hn : h1.next = h.next + 1)
    (hcount : h1.count = h.count + 1)
    (hnew : (h1.blocks h.next).isSome = true)
    (hs : ∀ q, q ≠ h.next → h1.blocks q = h.blocks q) : h1.counted := by
  obtain ⟨c1, c2⟩ := hc
  refine ⟨?_, ?_⟩
  · rw [hcount, c1]
    unfold Heap.live
    rw [hn, List.range_succ, List.countP_append, List.countP_singleton, hnew]
    have e : (List.range h.next).countP (fun p => (h1.blocks p).isSome) =
        (List.range h.next).countP (fun p => (h.blocks p).isSome) := by
      apply countP_range_congr
      intro q hq
      rw [hs q (by omega)]
    rw [e]
    simp
  · intro q hq
    rw [hs q (by omega)]
    exact c2 q (by omega)

/-- Freeing a live block and decrementing the counter keeps the heap counted. -/
theorem Heap.counted_of_free (h h1 : Heap) (p : Nat) (hc : h.counted) (hn : h1.next = h.next)
    (hcount : h1.count = h.count - 1)
    (hlive : (h.blocks p).isSome = true) (hfree : h1.blocks p = none)
    (hs : ∀ q, q ≠ p → (h1.blocks q).isSome = (h.blocks q).isSome) : h1.counted := by
  obtain ⟨c1, c2⟩ := hc
  have hp : p < h.next := by
    by_cases hlt : p < h.next
    · exact hlt
    · have := c2 p (by omega)
      rw [this] at hlive
      simp at hlive
  refine ⟨?_, ?_⟩
  · rw [hcount, c1]
    unfold Heap.live
    rw [hn]
    have e := countP_range_clear (fun q => (h.blocks q).isSome) (fun q => (h1.blocks q).isSome) p
      (fun q hq => (hs q hq).symm) hlive (by simp [hfree]) h.next
    rw [e, if_pos hp]
    push_cast
    ring
  · intro q hq
    by_cases hqp : q = p
    · rw [hqp]; exact hfree
    · have h2 := c2 q (by omega)
      have h3 := hs q hqp
      rw [h2] at h3
      cases hb : h1.blocks q with
      | none => rfl
      | some td => rw [hb] at h3; simp at h3

theorem Heap.empty_counted : Heap.empty.counted :=
  ⟨rfl, fun _ _ => rfl⟩

theorem Heap.ref_counted (h : Heap) (p : Nat) (hc : h.counted) : (h.ref p).counted := by
  apply Heap.counted_of_shape h _ hc
  · exact Heap.ref_next h p
  · unfold Heap.ref
    cases h.blocks p <;> rfl
  · intro q
    unfold Heap.ref
    cases hb : h.blocks p with
    | none => rfl
    | some td =>
      by_cases hq : q = p
      · simp [Function.update, hq, hb]
      · simp [Function.update, hq]

theorem Heap.write_counted (h : Heap) (p : Nat) (d : List Nat) (hc : h.counted) :
    (h.write p d).counted := by
  apply Heap.counted_of_shape h _ hc (Heap.write_next h p d) (Heap.write_count h p d)
  intro q
  unfold Heap.write
  cases hb : h.blocks p with
  | none => rfl
  | some td =>
    by_cases hq : q = p
    · simp [Function.update, hq, hb]
    · simp [Function.update, hq]

theorem Heap.deref_counted (h : Heap) (p : Nat) (hc : h.counted) : (h.deref p).1.counted := by
  unfold Heap.deref
  cases hb : h.blocks p with
  | none => exact hc
  | some td =>
    simp only []
    refine Heap.counted_of_shape h _ hc ?_ ?_ ?_
    · rfl
    · rfl
    · intro q
      by_cases hq : q = p
      · simp [Function.update, hq, hb]
      · simp [Function.update, hq]

theorem TileData.new_counted (SIZE : Nat) (h : Heap) (junk : Nat → Nat) (hc : h.counted) :
    (TileData.new SIZE h junk).1.counted := by
  apply Heap.counted_of_alloc h _ hc rfl rfl
  · simp [TileData.new]
  · intro q hq
    simp [TileData.new, Function.update, hq]

theorem TileData.cloned_counted (h : Heap) (td : TileData) (hc : h.counted) :
    (TileData.copy h td).1.counted := by
  apply Heap.counted_of_alloc h _ hc rfl rfl
  · simp [TileData.copy]
  · intro q hq
    simp [TileData.copy, Function.update, hq]

theorem TileData.delete_counted (h : Heap) (p : Nat) (hc : h.counted)
    (hlive : (h.blocks p).isSome = true) : (TileData.delete h p).counted := by
  apply Heap.counted_of_free h (TileData.delete h p) p hc rfl rfl hlive
  · simp [TileData.delete]
  · intro q hq
    simp [TileData.delete, Function.update, hq]

theorem QSharedDataPointer.release_counted (h : Heap) (d : Option Nat) (hc : h.counted) :
    (QSharedDataPointer.release h d).counted := by
  cases d with
  | none => exact hc
  | some p =>
    have hd := Heap.deref_counted h p hc
    unfold QSharedDataPointer.release
    simp only []
    by_cases hr : (h.deref p).2 = true
    · rw [if_pos hr]
      exact hd
    · rw [if_neg hr]
      apply TileData.delete_counted _ _ hd
      unfold Heap.deref
      unfold Heap.deref at hr
      cases hb : h.blocks p with
      | none => simp [hb] at hr
      | some td => simp [Function.update]

theorem QSharedDataPointer.detach_counted (h : Heap) (d : Option Nat) (hc : h.counted) :
    (QSharedDataPointer.detach h d).1.counted := by
  cases d with
  | none => exact hc
  | some p =>
    cases hb : h.blocks p with
    | none =>
      simp only [QSharedDataPointer.detach, hb]
      exact hc
    | some td =>
      by_cases hr : td.ref ≠ 1
      · simp only [QSharedDataPointer.detach, hb]
        rw [if_pos hr]
        exact QSharedDataPointer.release_counted _ _
          (Heap.ref_counted _ _ (TileData.cloned_counted h td hc))
      · simp only [QSharedDataPointer.detach, hb]
        rw [if_neg hr]
        exact hc

theorem Tile.alloc_counted (SIZE : Nat) (h : Heap) (junk : Nat → Nat) (hc : h.counted) :
    (Tile.alloc SIZE h junk).1.counted :=
  Heap.ref_counted _ _ (TileData.new_counted SIZE h junk hc)

theorem Tile.copy_counted (h : Heap) (t : Tile) (hc : h.counted) : (Tile.copy h t).1.counted := by
  unfold Tile.copy
  cases t._data with
  | none => exact hc
  | some p => exact Heap.ref_counted h p hc

theorem Tile.destroy_counted (h : Heap) (t : Tile) (hc : h.counted) :
    (Tile.destroy h t).counted :=
  QSharedDataPointer.release_counted h t._data hc

theorem Tile.getOrCreateData_counted (SIZE : Nat) (h : Heap) (t : Tile) (junk : Nat → Nat)
    (hc : h.counted) (h1 : Heap) (t1 : Tile) (q : Nat)
    (hg : Tile.getOrCreateData SIZE h t junk = some (h1, t1, q)) : h1.counted := by
  cases hp : t._data with
  | none =>
    rw [Tile.getOrCreateData_null SIZE h t junk hp] at hg
    cases hg
    exact Heap.write_counted _ _ _ (Tile.alloc_counted SIZE h junk hc)
  | some p =>
    have hd := QSharedDataPointer.detach_counted h (some p) hc
    simp only [Tile.getOrCreateData, hp] at hg
    cases he : (QSharedDataPointer.detach h (some p)).2 with
    | none => simp [he] at hg
    | some q2 =>
      simp only [he] at hg
      cases hg
      exact hd

theorem Tile.ofColor_counted (SIZE : Nat) (h : Heap) (junk : Nat → Nat) (c : QColor)
    (hc : h.counted) : (Tile.ofColor SIZE h junk c).1.counted := by
  obtain ⟨r, hr, _⟩ := Tile.ofColor_spec SIZE h junk c
  rw [hr]
  exact Heap.write_counted _ _ _ (Tile.alloc_counted SIZE h junk hc)

theorem Tile.composite_counted (SIZE : Nat)
    (compositeMask : Int → List Nat → Int → Nat → List Nat → Int → Int → Int → Int → List Nat)
    (h : Heap) (t : Tile) (junk : Nat → Nat) (mode : Int) (values : List Nat) (color : QColor)
    (x y w hh skip : Int) (hc : h.counted) (h1 : Heap) (t1 : Tile)
    (he : Tile.composite SIZE compositeMask h t junk mode values color x y w hh skip
      = some (h1, t1)) : h1.counted := by
  obtain ⟨h0, q, hg⟩ := Tile.getOrCreateData_returns SIZE h t junk
  have hs : (Tile.composite SIZE compositeMask h t junk mode values color x y w hh skip).isSome
      = true := by rw [he]; rfl
  obtain ⟨ha, hb⟩ := (Tile.composite_isSome SIZE compositeMask h t junk mode values color
    x y w hh skip).mp hs
  rw [Tile.composite_eq SIZE compositeMask h t junk mode values color x y w hh skip
    _ _ _ ha hb hg] at he
  cases he
  exact Heap.write_counted _ _ _ (Tile.getOrCreateData_counted SIZE h t junk hc _ _ _ hg)

theorem Tile.merge_counted (SIZE : Nat)
    (compositePixels : Int → List Nat → List Nat → Int → Nat → List Nat)
    (h : Heap) (t : Tile) (junk : Nat → Nat) (tile : Tile) (opacity : Nat) (blend : Int)
    (hc : h.counted) (h1 : Heap) (t1 : Tile)
    (he : Tile.merge SIZE compositePixels h t junk tile opacity blend = some (h1, t1)) :
    h1.counted := by
  obtain ⟨h0, q, hg⟩ := Tile.getOrCreateData_returns SIZE h t junk
  cases hs : tile._data with
  | none =>
    have hn : tile.isNull = true := by simp [Tile.isNull, hs]
    simp only [Tile.merge, hn, Bool.not_true, Bool.false_eq_true, if_false] at he
    cases he
    exact hc
  | some sp =>
    rw [Tile.merge_eq SIZE compositePixels h t junk tile opacity blend _ _ _ sp hs hg] at he
    cases he
    exact Heap.write_counted _ _ _ (Tile.getOrCreateData_counted SIZE h t junk hc _ _ _ hg)

theorem Tile.ofImage_counted (SIZE : Nat) (h : Heap) (junk : Nat → Nat) (img : QImage)
    (xoff yoff : Int) (hc : h.counted) (h1 : Heap) (t1 : Tile)
    (he : Tile.ofImage SIZE h junk img xoff yoff = some (h1, t1)) : h1.counted := by
  have hcw : ∀ r, ((Tile.alloc SIZE h junk).1.write h.next r).counted :=
    fun r => Heap.write_counted _ _ _ (Tile.alloc_counted SIZE h junk hc)
  unfold Tile.ofImage at he
  simp only [Tile.detach_alloc] at he
  split_ifs at he
  all_goals
    split at he
    · cases he
    · split at he
      · cases he
      · cases he
        exact hcw _

/-! ## Reference counting -/

theorem Tile.copy_step (h : Heap) (t : Tile) (p : Nat) (r : Int) (d : List Nat)
    (hp : t._data = some p) (hb : h.blocks p = some { ref := r, data := d }) :
    (Tile.copy h t).1.blocks p = some { ref := r + 1, data := d } ∧
      (∀ q, q ≠ p → (Tile.copy h t).1.blocks q = h.blocks q) ∧
      (Tile.copy h t).1.next = h.next ∧ (Tile.copy h t).1.count = h.count := by
  have e : (Tile.copy h t).1 =
      { h with blocks := Function.update h.blocks p (some { ref := r + 1, data := d }) } := by
    simp [Tile.copy, hp, Heap.ref, hb]
  rw [e]
  exact ⟨by simp, fun q hq => by simp [Function.update, hq], rfl, rfl⟩

theorem Tile.destroy_step_keep (h : Heap) (t : Tile) (p : Nat) (r : Int) (d : List Nat)
    (hp : t._data = some p) (hb : h.blocks p = some { ref := r, data := d })
    (hr : r - 1 ≠ 0) :
    (Tile.destroy h t).blocks p = some { ref := r - 1, data := d } ∧
      (∀ q, q ≠ p → (Tile.destroy h t).blocks q = h.blocks q) ∧
      (Tile.destroy h t).next = h.next ∧ (Tile.destroy h t).count = h.count := by
  have e : Tile.destroy h t =
      { h with blocks := Function.update h.blocks p (some { ref := r - 1, data := d }) } := by
    simp [Tile.destroy, hp, QSharedDataPointer.release, Heap.deref, hb, hr]
  rw [e]
  exact ⟨by simp, fun q hq => by simp [Function.update, hq], rfl, rfl⟩

theorem Tile.destroy_step_free (h : Heap) (t : Tile) (p : Nat) (d : List Nat)
    (hp : t._data = some p) (hb : h.blocks p = some { ref := 1, data := d }) :
    (Tile.destroy h t).blocks p = none ∧
      (∀ q, q ≠ p → (Tile.destroy h t).blocks q = h.blocks q) ∧
      (Tile.destroy h t).next = h.next ∧ (Tile.destroy h t).count = h.count - 1 := by
  have e : Tile.destroy h t =
      { blocks := Function.update h.blocks p none, next := h.next, count := h.count - 1 } := by
    simp [Tile.destroy, hp, QSharedDataPointer.release, Heap.deref, hb, TileData.delete]
  rw [e]
  exact ⟨by simp, fun q hq => by simp [Function.update, hq], rfl, rfl⟩

/-- Every copy adds one holder to the block and changes nothing else. -/
theorem Tile.copyN_spec (t : Tile) (p : Nat) (d : List Nat) (hp : t._data = some p) :
    ∀ (n : Nat) (h : Heap) (r : Int), h.blocks p = some { ref := r, data := d } →
      (Tile.copyN n h t).blocks p = some { ref := r + n, data := d } ∧
      (∀ q, q ≠ p → (Tile.copyN n h t).blocks q = h.blocks q) ∧
      (Tile.copyN n h t).next = h.next ∧ (Tile.copyN n h t).count = h.count := by
  intro n
  induction n with
  | zero =>
    intro h r hb
    exact ⟨by simp [Tile.copyN, hb], fun _ _ => rfl, rfl, rfl⟩
  | succ n ih =>
    intro h r hb
    obtain ⟨s1, s2, s3, s4⟩ := Tile.copy_step h t p r d hp hb
    obtain ⟨i1, i2, i3, i4⟩ := ih (Tile.copy h t).1 (r + 1) s1
    simp only [Tile.copyN]
    refine ⟨?_, ?_, by rw [i3, s3], by rw [i4, s4]⟩
    · rw [i1]
      push_cast
      congr 2
      ring
    · intro q hq
      rw [i2 q hq, s2 q hq]

/-- Destroying `k` holders of a block that has more than `k` of them removes
`k` from its count and changes nothing else. -/
theorem Tile.destroyN_spec (t : Tile) (p : Nat) (d : List Nat) (hp : t._data = some p) :
    ∀ (k : Nat) (h : Heap) (j : Nat),
      h.blocks p = some { ref := ((j + k : Nat) : Int) + 1, data := d } →
      (Tile.destroyN k h t).blocks p = some { ref := (j : Int) + 1, data := d } ∧
      (∀ q, q ≠ p → (Tile.destroyN k h t).blocks q = h.blocks q) ∧
      (Tile.destroyN k h t).next = h.next ∧ (Tile.destroyN k h t).count = h.count := by
  intro k
  induction k with
  | zero =>
    intro h j hb
    exact ⟨by simpa [Tile.destroyN] using hb, fun _ _ => rfl, rfl, rfl⟩
  | succ k ih =>
    intro h j hb
    obtain ⟨s1, s2, s3, s4⟩ := Tile.destroy_step_keep h t p _ d hp hb (by omega)
    have e : ((j + (k + 1) : Nat) : Int) + 1 - 1 = ((j + k : Nat) : Int) + 1 := by omega
    rw [e] at s1
    obtain ⟨i1, i2, i3, i4⟩ := ih (Tile.destroy h t) j s1
    simp only [Tile.destroyN]
    refine ⟨i1, ?_, by rw [i3, s3], by rw [i4, s4]⟩
    intro q hq
    rw [i2 q hq, s2 q hq]

theorem Tile.destroyN_succ (t : Tile) :
    ∀ (k : Nat) (h : Heap), Tile.destroyN (k + 1) h t = Tile.destroy (Tile.destroyN k h t) t := by
  intro k
  induction k with
  | zero =>
    intro h
    rfl
  | succ k ih =>
    intro h
    have h1 : Tile.destroyN (k + 1 + 1) h t = Tile.destroyN (k + 1) (Tile.destroy h t) t := rfl
    rw [h1, ih (Tile.destroy h t)]
    rfl

/-- C15. Reference counting, for a block that `m + 1` handles equal to `t` hold
in a heap whose debug counter is right. After `n` further copies and the
destruction of `k` handles, with at least one holder left (`k <= m + n`), the
block is live with `m + 1 + n - k` holders, its pixels are what they were and
`copyTo` through `t` returns them, and the counter has not moved. Once all
`m + 1 + n` holders are destroyed the block is freed and the counter is one
less. The counter equals the number of live blocks in the empty heap and
after every constructor and destructor of `TileData` and every operation of
`Tile`. -/
theorem C15_reference_counting (SIZE : Nat) (h : Heap) (t : Tile) (p : Nat) (d : List Nat)
    (m : Nat) (hp : t._data = some p)
    (hb : h.blocks p = some { ref := (m : Int) + 1, data := d }) (hc : h.counted) :
    (∀ n k, k ≤ m + n →
      (Tile.destroyN k (Tile.copyN n h t) t).blocks p =
        some { ref := ((m + n - k : Nat) : Int) + 1, data := d } ∧
      (∀ buf, Tile.copyTo SIZE (Tile.destroyN k (Tile.copyN n h t) t) t buf =
        Tile.copyTo SIZE h t buf) ∧
      (Tile.destroyN k (Tile.copyN n h t) t).count = h.count ∧
      (Tile.destroyN k (Tile.copyN n h t) t).counted) ∧
    (∀ n,
      (Tile.destroyN (m + n + 1) (Tile.copyN n h t) t).blocks p = none ∧
      (Tile.destroyN (m + n + 1) (Tile.copyN n h t) t).count = h.count - 1 ∧
      (Tile.destroyN (m + n + 1) (Tile.copyN n h t) t).live + 1 = h.live ∧
      (Tile.destroyN (m + n + 1) (Tile.copyN n h t) t).counted) ∧
    (Heap.empty.counted ∧
      (∀ junk, (TileData.new SIZE h junk).1.counted) ∧
      (∀ td, (TileData.copy h td).1.counted) ∧
      (∀ q, (h.blocks q).isSome = true → (TileData.delete h q).counted) ∧
      (∀ t2, (Tile.copy h t2).1.counted ∧ (Tile.destroy h t2).counted) ∧
      (∀ junk c, (Tile.ofColor SIZE h junk c).1.counted) ∧
      (∀ junk img xoff yoff h1 t1, Tile.ofImage SIZE h junk img xoff yoff = some (h1, t1) →
        h1.counted) ∧
      (∀ t2 junk h1 t1 q, Tile.getOrCreateData SIZE h t2 junk = some (h1, t1, q) →
        h1.counted)) := by
  have key : ∀ n k, k ≤ m + n →
      (Tile.destroyN k (Tile.copyN n h t) t).blocks p =
        some { ref := ((m + n - k : Nat) : Int) + 1, data := d } ∧
      (∀ q, q ≠ p → (Tile.destroyN k (Tile.copyN n h t) t).blocks q = h.blocks q) ∧
      (Tile.destroyN k (Tile.copyN n h t) t).next = h.next ∧
      (Tile.destroyN k (Tile.copyN n h t) t).count = h.count := by
    intro n k hk
    obtain ⟨c1, c2, c3, c4⟩ := Tile.copyN_spec t p d hp n h _ hb
    have e : (m : Int) + 1 + (n : Int) = (((m + n - k) + k : Nat) : Int) + 1 := by omega
    rw [e] at c1
    obtain ⟨d1, d2, d3, d4⟩ := Tile.destroyN_spec t p d hp k (Tile.copyN n h t) (m + n - k) c1
    exact ⟨d1, fun q hq => by rw [d2 q hq, c2 q hq], by rw [d3, c3], by rw [d4, c4]⟩
  have shape : ∀ n k, k ≤ m + n →
      (Tile.destroyN k (Tile.copyN n h t) t).counted := by
    intro n k hk
    obtain ⟨k1, k2, k3, k4⟩ := key n k hk
    apply Heap.counted_of_shape h _ hc k3 k4
    intro q
    by_cases hq : q = p
    · rw [hq, k1, hb]
      rfl
    · rw [k2 q hq]
  refine ⟨?_, ?_, ?_⟩
  · intro n k hk
    obtain ⟨k1, k2, k3, k4⟩ := key n k hk
    refine ⟨k1, ?_, k4, shape n k hk⟩
    intro buf
    apply Tile.copyTo_congr
    intro q hq
    rw [hp] at hq
    cases hq
    rw [Heap.data_of_block _ _ _ k1, Heap.data_of_block _ _ _ hb]
  · intro n
    obtain ⟨k1, k2, k3, k4⟩ := key n (m + n) (Nat.le_refl _)
    have e : ((m + n - (m + n) : Nat) : Int) + 1 = 1 := by simp
    rw [e] at k1
    obtain ⟨f1, f2, f3, f4⟩ := Tile.destroy_step_free
      (Tile.destroyN (m + n) (Tile.copyN n h t) t) t p d hp k1
    rw [Tile.destroyN_succ]
    have hcnt : (Tile.destroy (Tile.destroyN (m + n) (Tile.copyN n h t) t) t).counted :=
      Tile.destroy_counted _ t (shape n (m + n) (Nat.le_refl _))
    refine ⟨f1, by rw [f4, k4], ?_, hcnt⟩
    have c1 := hcnt.1
    have c2 := hc.1
    rw [f4, k4] at c1
    omega
  · refine ⟨Heap.empty_counted, fun junk => TileData.new_counted SIZE h junk hc,
      fun td => TileData.cloned_counted h td hc,
      fun q hq => TileData.delete_counted h q hc hq,
      fun t2 => ⟨Tile.copy_counted h t2 hc, Tile.destroy_counted h t2 hc⟩,
      fun junk c => Tile.ofColor_counted SIZE h junk c hc,
      fun junk img xoff yoff h1 t1 he => Tile.ofImage_counted SIZE h junk img xoff yoff hc h1 t1 he,
      fun t2 junk h1 t1 q hg => Tile.getOrCreateData_counted SIZE h t2 junk hc h1 t1 q hg⟩

theorem C15_reference_counting_witness :
    ((Tile.destroyN 2 (Tile.copyN 2 sampleHeap sampleTile) sampleTile).blocks 0 =
        some { ref := ((0 + 2 - 2 : Nat) : Int) + 1, data := List.replicate 4 opaqueRed.rgba } ∧
      (∀ buf, Tile.copyTo 2 (Tile.destroyN 2 (Tile.copyN 2 sampleHeap sampleTile) sampleTile)
          sampleTile buf = Tile.copyTo 2 sampleHeap sampleTile buf) ∧
      (Tile.destroyN 2 (Tile.copyN 2 sampleHeap sampleTile) sampleTile).count =
        sampleHeap.count ∧
      (Tile.destroyN 2 (Tile.copyN 2 sampleHeap sampleTile) sampleTile).counted) ∧
    ((Tile.destroyN (0 + 2 + 1) (Tile.copyN 2 sampleHeap sampleTile) sampleTile).blocks 0 = none ∧
      (Tile.destroyN (0 + 2 + 1) (Tile.copyN 2 sampleHeap sampleTile) sampleTile).count =
        sampleHeap.count - 1 ∧
      (Tile.destroyN (0 + 2 + 1) (Tile.copyN 2 sampleHeap sampleTile) sampleTile).live + 1 =
        sampleHeap.live ∧
      (Tile.destroyN (0 + 2 + 1) (Tile.copyN 2 sampleHeap sampleTile) sampleTile).counted) :=
  ⟨(C15_reference_counting 2 sampleHeap sampleTile 0 (List.replicate 4 opaqueRed.rgba) 0 rfl rfl
      (Tile.ofColor_counted 2 Heap.empty (fun _ => 99) opaqueRed Heap.empty_counted)).1 2 2
      (by decide),
    (C15_reference_counting 2 sampleHeap sampleTile 0 (List.replicate 4 opaqueRed.rgba) 0 rfl rfl
      (Tile.ofColor_counted 2 Heap.empty (fun _ => 99) opaqueRed Heap.empty_counted)).2.1 2⟩

end paintcore
